import Mathlib

/-!
Shallow embedding of the Microbe-Wars simulation engine
(src/services/gamePhysics.ts, src/services/gameLogic.ts and the matching
unnamed module, src/hooks/useGameEngine.ts) and proofs about the frozen
claims.  JavaScript numbers are modelled as rationals; the transcendental
floating-point primitives (Math.hypot, Math.log10, Math.log) and every
Math.random draw are abstracted into an explicit `Oracle` record, so all
theorems quantify over every possible value of those primitives.
-/

namespace MicrobeWars

/-- Player colors from types.ts; GRAY is the distinguished neutral owner. -/
inductive PlayerColor
  | RED | BLUE | GREEN | PURPLE | ORANGE | GRAY
deriving DecidableEq, Repr, Inhabited

/-- Node type tags from types.ts. -/
inductive NodeType
  | DEFAULT | FORTRESS | HIVE
deriving DecidableEq, Repr, Inhabited

/-- Edge type tags from types.ts. -/
inductive EdgeType
  | PERMANENT | RANDOM
deriving DecidableEq, Repr

/-- Game phase strings used by the engine ('MENU', 'PLAYING', ...). -/
inductive GState
  | MENU | PLAYING | PAUSED | TUTORIAL | VICTORY | DEFEAT
deriving DecidableEq, Repr

/-- A territory node (types.ts `Node`). -/
structure Node where
  id : String
  x : ℚ
  y : ℚ
  owner : PlayerColor
  count : ℚ
  capacity : ℚ
  radius : ℚ
  growthAccumulator : ℚ
  captureProgress : ℚ
  prevOwner : PlayerColor
  type : NodeType
deriving DecidableEq, Repr, Inhabited

/-- An undirected connection between two node ids (types.ts `Edge`). -/
structure Edge where
  source : String
  target : String
  type : EdgeType
deriving DecidableEq, Repr

/-- A standing send order (types.ts `ActiveTransfer`).  The source stores
`totalToSend` as a JS number using `Infinity` as the unbounded sentinel;
it is modelled as `WithTop ℚ` with `⊤` playing the role of `Infinity`. -/
structure ActiveTransfer where
  id : String
  sourceId : String
  targetId : String
  owner : PlayerColor
  totalToSend : WithTop ℚ
  sentCount : ℚ
  lastSpawnTime : ℚ
  startX : ℚ
  startY : ℚ
  endX : ℚ
  endY : ℚ
deriving DecidableEq

/-- One travelling unit (types.ts `TravelPayload`).  The source gives each
payload a globally unique random string id; the model issues unique
natural-number ids from a counter instead. -/
structure TravelPayload where
  id : ℕ
  sourceId : String
  targetId : String
  owner : PlayerColor
  count : ℚ
  progress : ℚ
  speed : ℚ
  startX : ℚ
  startY : ℚ
  endX : ℚ
  endY : ℚ
deriving DecidableEq

/-- A transient per-tick impact event (types.ts `GameEvent`).  The source
also stores an `angle` computed with Math.atan2; that field is consumed
only by particle rendering and, being a transcendental float, is omitted
from the model. -/
structure GameEvent where
  targetId : String
  force : ℚ
  color : PlayerColor
deriving DecidableEq

/-- The aggregate world state (types.ts `GameWorld`). -/
structure GameWorld where
  nodes : List Node
  edges : List Edge
  payloads : List TravelPayload
  transfers : List ActiveTransfer
  latestEvents : List GameEvent
deriving DecidableEq

/-- AI difficulty levels 1..6 from types.ts. -/
inductive DifficultyLevel
  | L1 | L2 | L3 | L4 | L5 | L6
deriving DecidableEq, Repr

/-- One difficulty entry of DIFFICULTY_SETTINGS (constants file).
`maxActionsPerTick` is `Infinity` at level 6, modelled as `⊤`. -/
structure DifficultyConfig where
  actionInterval : ℚ
  maxActionsPerTick : WithTop ℕ
  hesitationChance : ℚ

/-- The DIFFICULTY_SETTINGS table from the constants file. -/
def DIFFICULTY_SETTINGS : DifficultyLevel → DifficultyConfig
  | .L1 => ⟨2000, (1 : ℕ), 1/2⟩
  | .L2 => ⟨1800, (2 : ℕ), 2/5⟩
  | .L3 => ⟨1500, (4 : ℕ), 3/10⟩
  | .L4 => ⟨1200, (8 : ℕ), 1/5⟩
  | .L5 => ⟨1000, (16 : ℕ), 1/10⟩
  | .L6 => ⟨1000, ⊤, 0⟩

/-- PLAYABLE_COLORS from the constants file. -/
def PLAYABLE_COLORS : List PlayerColor :=
  [.RED, .BLUE, .GREEN, .PURPLE, .ORANGE]

/-- TICK_RATE_MS. -/
def TICK_RATE_MS : ℚ := 50
/-- GROWTH_INTERVAL_MS. -/
def GROWTH_INTERVAL_MS : ℚ := 1000
/-- TRAVEL_SPEED_PIXELS. -/
def TRAVEL_SPEED_PIXELS : ℚ := 4
/-- BASE_SPAWN_INTERVAL_MS. -/
def BASE_SPAWN_INTERVAL_MS : ℚ := 500
/-- OCEAN_CURRENT_INTERVAL_MS. -/
def OCEAN_CURRENT_INTERVAL_MS : ℚ := 60000

/-- A distance candidate built by generateEdgesForNodes / regenerateTopology:
indices of the two endpoints in the node list plus their distance. -/
structure Cand where
  s : ℕ
  t : ℕ
  d : ℚ
deriving DecidableEq

/-- All floating-point transcendentals and random draws of the engine,
abstracted as unconstrained functions.  `hypot`, `log10` and `ln` stand for
Math.hypot / Math.log10 / Math.log; the AI fields model the Math.random
draws of calculateAIMoves (indexed by the position of the acting node and,
for the jitter, of the scored neighbor; real draws lie in [0,1)); and
`candShuffle` models the Fisher-Yates shuffle inside regenerateTopology
(the real one returns a permutation of its input). -/
structure Oracle where
  hypot : ℚ → ℚ → ℚ
  log10 : ℚ → ℚ
  ln : ℚ → ℚ
  aiShuffle : List Node → List Node
  hesitationRoll : ℕ → ℚ
  jitterRoll : ℕ → ℕ → ℚ
  gateRoll : ℕ → ℚ
  candShuffle : List Cand → List Cand

/-- calculateGrowthIncrement from gameLogic.ts. -/
def calculateGrowthIncrement (O : Oracle) (count baseGrowthPerTick : ℚ) : ℚ :=
  if count ≤ 1 then baseGrowthPerTick
  else baseGrowthPerTick * (1 + O.log10 count * (1/2))

/-- calculateUnitSpeed from gameLogic.ts. -/
def calculateUnitSpeed (O : Oracle) (nodeCount baseSpeed : ℚ) : ℚ :=
  if nodeCount ≤ 1 then baseSpeed
  else baseSpeed * (1 + O.ln nodeCount * (1/5))

/-- calculateSpawnInterval from gameLogic.ts. -/
def calculateSpawnInterval (O : Oracle) (count : ℚ) : ℚ :=
  let safeCount := max 1 count
  max 40 (BASE_SPAWN_INTERVAL_MS / (1 + O.ln safeCount))

/-- The connectivity test used both by the severance filter of
advanceGameState (`isConnected`) and by the neighbor scan of
calculateAIMoves (`connectedIds`): is there any edge joining the two ids,
in either orientation? -/
def edgeJoins (edges : List Edge) (sId tId : String) : Bool :=
  edges.any fun e =>
    (e.source = sId ∧ e.target = tId) ∨ (e.source = tId ∧ e.target = sId)

/-- Replace the first element satisfying `p` by its image under `f`
(the model of a findIndex followed by an indexed write). -/
def updateFirst (p : α → Bool) (f : α → α) : List α → List α
  | [] => []
  | a :: as => if p a then f a :: as else a :: updateFirst p f as

/-- Euclidean distance between two nodes as computed in gameLogic.ts
(`Math.hypot(a.x - b.x, a.y - b.y)`), via the abstract hypot. -/
def nodeDist (O : Oracle) (a b : Node) : ℚ :=
  O.hypot (a.x - b.x) (a.y - b.y)

/-- All index pairs i < j over `n` nodes, in the double-loop order of the
source. -/
def allPairs (n : ℕ) : List (ℕ × ℕ) :=
  (List.range n).flatMap fun i => ((List.range n).drop (i + 1)).map fun j => (i, j)

/-- The `potentialEdges` list of gameLogic.ts: every unordered index pair
with its Euclidean distance. -/
def potentialCands (O : Oracle) (nodes : List Node) : List Cand :=
  (allPairs nodes.length).map fun ij =>
    ⟨ij.1, ij.2, nodeDist O (nodes.getD ij.1 default) (nodes.getD ij.2 default)⟩

/-- Stable insertion of a candidate into a distance-sorted list. -/
def insertByDist (c : Cand) : List Cand → List Cand
  | [] => [c]
  | x :: xs => if c.d < x.d then c :: x :: xs else x :: insertByDist c xs

/-- Stable ascending sort by distance, the model of
`potentialEdges.sort((a, b) => a.d - b.d)`. -/
def sortByDist : List Cand → List Cand
  | [] => []
  | c :: cs => insertByDist c (sortByDist cs)

/-- The id of the node at index `i` (indices produced by `allPairs` are
always in range, so the default is never hit on source-shaped inputs). -/
def idAt (nodes : List Node) (i : ℕ) : String :=
  (nodes.getD i default).id

/-- Does an edge between the given candidate's endpoints already exist,
in either orientation (the duplicate check of the source)? -/
def candExists (nodes : List Node) (es : List Edge) (c : Cand) : Bool :=
  es.any fun e =>
    (e.source = idAt nodes c.s ∧ e.target = idAt nodes c.t) ∨
    (e.source = idAt nodes c.t ∧ e.target = idAt nodes c.s)

/-- The extra-RANDOM-edge loop shared by generateEdgesForNodes and
regenerateTopology: walk the candidate list, skip duplicates, append a
RANDOM edge otherwise, and stop once the quota is reached.  The d &lt; 400
bound is applied by the callers (generateEdgesForNodes checks it inside
the loop, which is equivalent to pre-filtering since a too-far candidate
changes no state; regenerateTopology pre-filters before shuffling). -/
def addRandomCands (nodes : List Node) : ℕ → List Cand → List Edge → List Edge
  | _, [], es => es
  | 0, _ :: _, es => es
  | Nat.succ q, c :: cs, es =>
    if candExists nodes es c then addRandomCands nodes (q + 1) cs es
    else addRandomCands nodes q cs
      (es ++ [⟨idAt nodes c.s, idAt nodes c.t, .RANDOM⟩])

/-- The partition semantics of the source's DisjointSet: `comp` maps every
index to a class label (the forest with path compression maintained by the
source realises exactly this partition). -/
def dsInit (n : ℕ) : List ℕ := List.range n

/-- Class label of index `i`. -/
def dsFind (comp : List ℕ) (i : ℕ) : ℕ := comp.getD i i

/-- Are two indices in the same class? -/
def dsConnected (comp : List ℕ) (i j : ℕ) : Bool := dsFind comp i = dsFind comp j

/-- Merge the class of `i` into the class of `j` (the partition effect of
`union`). -/
def dsUnion (comp : List ℕ) (i j : ℕ) : List ℕ :=
  comp.map fun l => if l = dsFind comp i then dsFind comp j else l

/-- The Kruskal loop of generateEdgesForNodes: over the distance-sorted
candidates, union the classes of every pair not yet connected and emit a
PERMANENT edge for it. -/
def kruskalFold (nodes : List Node) :
    List Cand → List Edge × List ℕ → List Edge × List ℕ
  | [], st => st
  | c :: cs, (es, comp) =>
    if dsConnected comp c.s c.t then kruskalFold nodes cs (es, comp)
    else kruskalFold nodes cs
      (es ++ [⟨idAt nodes c.s, idAt nodes c.t, .PERMANENT⟩], dsUnion comp c.s c.t)

/-- generateEdgesForNodes from gameLogic.ts: a PERMANENT minimum spanning
tree over Euclidean distance, then up to floor(n/2) extra RANDOM edges
among the remaining pairs closer than 400. -/
def generateEdgesForNodes (O : Oracle) (nodes : List Node) : List Edge :=
  let potential := sortByDist (potentialCands O nodes)
  let mst := kruskalFold nodes potential ([], dsInit nodes.length)
  addRandomCands nodes (nodes.length / 2) (potential.filter fun c => c.d < 400) mst.1

/-- regenerateTopology from gameLogic.ts: keep all PERMANENT edges, then
re-add up to floor(n/2) RANDOM edges drawn from the shuffled
distance-bounded candidates, skipping duplicates. -/
def regenerateTopology (O : Oracle) (nodes : List Node) (currentEdges : List Edge) :
    List Edge :=
  let permanentEdges := currentEdges.filter fun e => e.type = .PERMANENT
  let potential := sortByDist (potentialCands O nodes)
  let validCandidates := potential.filter fun c => c.d < 400
  let shuffled := O.candShuffle validCandidates
  addRandomCands nodes (nodes.length / 2) shuffled permanentEdges

/-- Score assigned by calculateAIMoves (gameLogic.ts) to a neighbor
`target` of the acting node `source`; `i` and `j` index the acting node
and the neighbor for the jitter draw. -/
def scoreTarget (O : Oracle) (i j : ℕ) (source target : Node) : ℚ :=
  let saturation := source.count / source.capacity
  let base : ℚ :=
    if target.owner = .GRAY then
      let s0 := 100 - target.count
      let s1 := if saturation > 4/5 then s0 + 50 else s0
      let s2 := if target.type = .HIVE then s1 + 40 else s1
      if target.type = .FORTRESS then s2 + 30 else s2
    else if target.owner ≠ source.owner then
      let diff := source.count - target.count
      if target.type = .FORTRESS then
        let effectiveDiff := source.count - target.count * 2
        if effectiveDiff > 0 then 30 + effectiveDiff else -500
      else if saturation > 9/10 then 100 + diff * (1/10)
      else if diff > 0 then 50 + diff
      else if diff > -10 then -20 else -1000
    else
      let s0 : ℚ :=
        if target.count < 15 then 50 + (15 - target.count)
        else if target.count < target.capacity * (1/2) then 10
        else -50
      if saturation > 4/5 ∧ target.count / target.capacity > 4/5 then -200 else s0
  base + O.jitterRoll i j * 20

/-- The best-scoring neighbor scan of calculateAIMoves (bestScore starts
at -Infinity, so the first neighbor always becomes the running best; a
later neighbor replaces it only on a strictly greater score). -/
def pickBest (O : Oracle) (i : ℕ) (source : Node) (neighbors : List Node) :
    Option (Node × ℚ) :=
  neighbors.enum.foldl
    (fun best jt =>
      let score := scoreTarget O i jt.1 source jt.2
      match best with
      | none => some (jt.2, score)
      | some (bt, bs) => if score > bs then some (jt.2, score) else some (bt, bs))
    none

/-- The per-acting-node body of calculateAIMoves: hesitation gate, minimum
strength gate, neighbor scoring, action threshold and the final
probabilistic gate. -/
def aiMoveFor (O : Oracle) (cfg : DifficultyConfig) (nodes : List Node)
    (edges : List Edge) (i : ℕ) (source : Node) : Option (String × String) :=
  if O.hesitationRoll i < cfg.hesitationChance then none
  else if source.count < 10 then none
  else
    let neighbors := nodes.filter fun n => edgeJoins edges source.id n.id
    match pickBest O i source neighbors with
    | none => none
    | some (bt, bs) =>
      let saturation := source.count / source.capacity
      let threshold : ℚ := if saturation > 9/10 then 10 else 30
      if bs > threshold ∧ (bs > 50 ∨ O.gateRoll i > 3/10) then
        some (source.id, bt.id)
      else none

/-- calculateAIMoves from gameLogic.ts. -/
def calculateAIMoves (O : Oracle) (world : GameWorld) (playerColor : PlayerColor)
    (difficulty : DifficultyLevel) (isPlayerAutoPilot : Bool) :
    List (String × String) :=
  let config := DIFFICULTY_SETTINGS difficulty
  let aiNodes := world.nodes.filter fun n =>
    n.owner ≠ .GRAY ∧ (isPlayerAutoPilot ∨ n.owner ≠ playerColor) ∧
      n.owner ∈ PLAYABLE_COLORS
  let shuffled := O.aiShuffle aiNodes
  let actingNodes :=
    match config.maxActionsPerTick with
    | none => shuffled
    | some k => shuffled.take k
  actingNodes.enum.filterMap fun iv =>
    aiMoveFor O config world.nodes world.edges iv.1 iv.2

/-- PhysicsContext from gamePhysics.ts. -/
structure PhysicsContext where
  now : ℚ
  lastTickTime : ℚ
  lastAITime : ℚ
  nextEventTime : ℚ
  playerColor : PlayerColor
  gameState : GState
  difficulty : DifficultyLevel
  isPlayerAutoPilot : Bool
  tutorialStep : ℕ

/-- PhysicsResult from gamePhysics.ts. -/
structure PhysicsResult where
  world : GameWorld
  lastAITime : ℚ
  nextEventTime : ℚ
  hasChanges : Bool

/-- Gate of phase 1 of advanceGameState: the ocean-current topology shift
fires outside tutorial mode once the clock reaches the scheduled time. -/
def TopoShiftDue (ctx : PhysicsContext) : Prop :=
  ctx.gameState ≠ .TUTORIAL ∧ ctx.nextEventTime ≤ ctx.now

instance (ctx : PhysicsContext) : Decidable (TopoShiftDue ctx) :=
  inferInstanceAs (Decidable (ctx.gameState ≠ GState.TUTORIAL ∧ ctx.nextEventTime ≤ ctx.now))

/-- Gate of phase 4: the AI acts outside tutorial mode when the configured
action interval has elapsed. -/
def AIDue (ctx : PhysicsContext) : Prop :=
  ctx.gameState ≠ .TUTORIAL ∧
    ctx.now - ctx.lastAITime > (DIFFICULTY_SETTINGS ctx.difficulty).actionInterval

instance (ctx : PhysicsContext) : Decidable (AIDue ctx) :=
  inferInstanceAs (Decidable (ctx.gameState ≠ GState.TUTORIAL ∧
    ctx.now - ctx.lastAITime > (DIFFICULTY_SETTINGS ctx.difficulty).actionInterval))

/-- Per-transfer spawn gate of phase 3. -/
def SpawnDue (now : ℚ) (t : ActiveTransfer) (interval : ℚ) : Prop :=
  now - t.lastSpawnTime > interval

instance (now : ℚ) (t : ActiveTransfer) (interval : ℚ) :
    Decidable (SpawnDue now t interval) :=
  inferInstanceAs (Decidable (now - t.lastSpawnTime > interval))

/-- baseGrowthPerTick as computed at the top of phase 2. -/
def baseGrowthPerTick : ℚ := 1 / (GROWTH_INTERVAL_MS / TICK_RATE_MS)

/-- inkSpreadSpeed (5 percent per tick). -/
def inkSpreadSpeed : ℚ := 1/20

/-- The accumulator value a node reaches this tick: its stored accumulator
plus the growth increment (with the HIVE bonus). -/
def growAccOf (O : Oracle) (n : Node) : ℚ :=
  let gi0 := calculateGrowthIncrement O n.count baseGrowthPerTick
  let gi := if n.type = .HIVE then gi0 * (8/5) else gi0
  n.growthAccumulator + gi

/-- The ink-spreading animation advance at the top of phase 2. -/
def inkStep (n : Node) : Node :=
  if n.captureProgress < 1 then
    { n with captureProgress := min 1 (n.captureProgress + inkSpreadSpeed) }
  else n

/-- Phase 2 of advanceGameState on one node: ink-spreading animation, then
logarithmic growth through the fractional accumulator.  Neutral (GRAY)
nodes never grow; a HIVE grows 60 percent faster; whole units are credited
once the accumulator reaches 1. -/
def growNode (O : Oracle) (n : Node) : Node :=
  let n1 := inkStep n
  if n1.owner ≠ .GRAY then
    let newAccumulator := growAccOf O n1
    if 1 ≤ newAccumulator then
      { n1 with count := n1.count + (⌊newAccumulator⌋ : ℚ),
                growthAccumulator := newAccumulator - (⌊newAccumulator⌋ : ℚ) }
    else { n1 with growthAccumulator := newAccumulator }
  else n1

/-- Accumulator threaded through the transfer-spawning loop (phase 3). -/
structure SpawnState where
  nodes : List Node
  payloads : List TravelPayload
  surviving : List ActiveTransfer
  nextId : ℕ
  changed : Bool

/-- Phase 3 of advanceGameState for one transfer: drop it if its source
vanished or changed owner; spawn one unit (draining the source by 1) when
the dynamic interval elapsed, quota remains and the source has at least
one unit; keep the transfer while quota remains.  The still-active check
reads the stale pre-decrement source count, exactly as the source does. -/
def spawnStep (O : Oracle) (now : ℚ) (s : SpawnState) (t : ActiveTransfer) :
    SpawnState :=
  match s.nodes.find? (fun n => n.id = t.sourceId) with
  | none => s
  | some sourceNode =>
    if sourceNode.owner ≠ t.owner then s
    else
      let dynamicInterval := calculateSpawnInterval O sourceNode.count
      let canSpawn := (t.totalToSend = ⊤ ∨ (t.sentCount : WithTop ℚ) < t.totalToSend)
                        ∧ 1 ≤ sourceNode.count
      if SpawnDue now t dynamicInterval ∧ canSpawn then
        let nodes1 := updateFirst (fun n => n.id = t.sourceId)
          (fun n => { n with count := n.count - 1 }) s.nodes
        let dist := O.hypot (t.endX - t.startX) (t.endY - t.startY)
        let speedPixels := calculateUnitSpeed O sourceNode.count TRAVEL_SPEED_PIXELS
        let progressIncrement := if dist > 0 then speedPixels / dist else 1/5
        let payload : TravelPayload :=
          ⟨s.nextId, t.sourceId, t.targetId, t.owner, 1, 0, progressIncrement,
           t.startX, t.startY, t.endX, t.endY⟩
        let t1 := { t with sentCount := t.sentCount + 1, lastSpawnTime := now }
        let stillActive :=
          (t1.totalToSend = ⊤ ∨ (t1.sentCount : WithTop ℚ) < t1.totalToSend)
            ∧ 0 ≤ sourceNode.count
        { nodes := nodes1, payloads := s.payloads ++ [payload],
          surviving := if stillActive then s.surviving ++ [t1] else s.surviving,
          nextId := s.nextId + 1, changed := true }
      else
        let stillActive :=
          (t.totalToSend = ⊤ ∨ (t.sentCount : WithTop ℚ) < t.totalToSend)
            ∧ 0 ≤ sourceNode.count
        { s with surviving := if stillActive then s.surviving ++ [t] else s.surviving }

/-- First unused payload id: one past every id already in flight (the
engine's random string ids are modelled by a fresh-id counter). -/
def freshIdBase (ps : List TravelPayload) : ℕ :=
  ps.foldl (fun m p => max m (p.id + 1)) 0

/-- The fresh transfer an AI move creates: half the source, counters at
zero (the source names it with a random id; the model uses the fixed id
"ai"). -/
def aiTransferFor (source target : Node) : ActiveTransfer :=
  ⟨"ai", source.id, target.id, source.owner,
   (((⌊source.count / 2⌋ : ℚ) : WithTop ℚ)), 0, 0,
   source.x, source.y, target.x, target.y⟩

/-- Application of one AI move inside phase 4 of advanceGameState: a fresh
transfer of half the source is pushed whenever source and target exist and
the source holds more than 2 units. -/
def aiApplyMove (nodes : List Node) (acc : List ActiveTransfer)
    (mv : String × String) : List ActiveTransfer :=
  match nodes.find? (fun n => n.id = mv.1), nodes.find? (fun n => n.id = mv.2) with
  | some source, some target =>
    if source.count > 2 then acc ++ [aiTransferFor source target]
    else acc
  | _, _ => acc

/-- Phase 5 movement: every payload advances by its own speed. -/
def movePayload (p : TravelPayload) : TravelPayload :=
  { p with progress := p.progress + p.speed }

/-- Lexicographic comparison of character lists. -/
def charListLt : List Char → List Char → Bool
  | [], [] => false
  | [], _ :: _ => true
  | _ :: _, [] => false
  | a :: as, b :: bs => if a < b then true else if b < a then false else charListLt as bs

/-- The JS string comparison `p.sourceId < p.targetId` used to orient the
collision edge key: lexicographic on code units (the engine's ids are
ASCII, where JS UTF-16 order and code-point order agree). -/
def strLt (a b : String) : Bool := charListLt a.data b.data

/-- The undirected edge key by which payloads are grouped for collision
detection (the source concatenates the two ids ordered by string
comparison; the model keeps the ordered pair). -/
def edgeKey (p : TravelPayload) : String × String :=
  if strLt p.sourceId p.targetId then (p.sourceId, p.targetId)
  else (p.targetId, p.sourceId)

/-- Collision threshold of a group, computed from its first payload: a 15
pixel radius converted to progress space, 0.05 for a degenerate path. -/
def collisionThreshold (O : Oracle) (p0 : TravelPayload) : ℚ :=
  let pathLength := O.hypot (p0.endX - p0.startX) (p0.endY - p0.startY)
  if pathLength > 0 then 15 / pathLength else 1/20

/-- Inner collision loop: the fixed payload `p1` is tested against each
later group member; a hit removes both, and the loop keeps scanning with
the same `p1`. -/
def collideInner (thr : ℚ) (p1 : TravelPayload) :
    List TravelPayload → List ℕ → List ℕ
  | [], removed => removed
  | p2 :: rest, removed =>
    if p2.id ∈ removed then collideInner thr p1 rest removed
    else if p1.owner ≠ p2.owner ∧ p1.sourceId ≠ p2.sourceId ∧
        |p1.progress - (1 - p2.progress)| < thr then
      collideInner thr p1 rest (p1.id :: p2.id :: removed)
    else collideInner thr p1 rest removed

/-- Outer collision loop over one group: an already-removed payload is
skipped entirely. -/
def collideOuter (thr : ℚ) : List TravelPayload → List ℕ → List ℕ
  | [], removed => removed
  | p :: rest, removed =>
    if p.id ∈ removed then collideOuter thr rest removed
    else collideOuter thr rest (collideInner thr p rest removed)

/-- Process one edge group against the shared removal set; groups of fewer
than two payloads are skipped. -/
def processGroup (O : Oracle) (g : List TravelPayload) (removed : List ℕ) :
    List ℕ :=
  if g.length < 2 then removed
  else
    match g with
    | [] => removed
    | p0 :: _ => collideOuter (collisionThreshold O p0) g removed

/-- Keys of the payload groups in first-occurrence order (JS Map iteration
order). -/
def groupKeysOf (ps : List TravelPayload) : List (String × String) :=
  ps.foldl (fun acc p => if edgeKey p ∈ acc then acc else acc ++ [edgeKey p]) []

/-- Phase 5 collision detection: the ids of every payload annihilated this
tick. -/
def collisionRemovals (O : Oracle) (ps : List TravelPayload) : List ℕ :=
  (groupKeysOf ps).foldl
    (fun removed k => processGroup O (ps.filter fun p => edgeKey p = k) removed) []

/-- The running per-node combat state of phase 6 (the record stored in the
nodeUpdates map). -/
structure ArrState where
  count : ℚ
  owner : PlayerColor
  prevOwner : PlayerColor
  captureProgress : ℚ
  type : NodeType
deriving DecidableEq, Repr

/-- Initial running state of a node, the fallback of getLatestNodeState
(the JS `n.prevOwner || n.owner` undefined-guard collapses to
`n.prevOwner`, which always exists in the model). -/
def initArrState (n : Node) : ArrState :=
  ⟨n.count, n.owner, n.prevOwner, n.captureProgress, n.type⟩

/-- Effective damage of an attacking payload of size `c`: halved against a
FORTRESS. -/
def incomingDamageOf (st : ArrState) (c : ℚ) : ℚ :=
  if st.type = .FORTRESS then c * (1/2) else c

/-- Assoc-list update with JS Map set semantics. -/
def setAssoc (k : String) (v : ArrState) :
    List (String × ArrState) → List (String × ArrState)
  | [] => [(k, v)]
  | kv :: rest => if kv.1 = k then (k, v) :: rest else kv :: setAssoc k v rest

/-- Assoc-list lookup with JS Map get semantics. -/
def getAssoc (k : String) : List (String × ArrState) → Option ArrState
  | [] => none
  | kv :: rest => if kv.1 = k then some kv.2 else getAssoc k rest

/-- Accumulator of the arrival loop of phase 6. -/
structure ArrivalAcc where
  updates : List (String × ArrState)
  events : List GameEvent
  survivors : List TravelPayload
  changed : Bool

/-- Phase 6 for one payload: collided payloads are skipped; a payload that
reached its target resolves against the accumulated running state of that
node (reinforcement, damage, or capture with ownership flip to the
absolute deficit) and emits an impact event; anything else survives. -/
def arrivalStep (nodes : List Node) (removed : List ℕ)
    (acc : ArrivalAcc) (p : TravelPayload) : ArrivalAcc :=
  if p.id ∈ removed then acc
  else if 1 ≤ p.progress then
    match nodes.find? (fun n => n.id = p.targetId) with
    | none => { acc with changed := true }
    | some target =>
      let currentState := (getAssoc target.id acc.updates).getD (initArrState target)
      let mass := max 20 currentState.count
      let force := min 1 (30 / mass)
      let ev : GameEvent := ⟨target.id, force, p.owner⟩
      let st1 :=
        if currentState.owner = p.owner then
          { currentState with count := currentState.count + p.count }
        else
          let result := currentState.count - incomingDamageOf currentState p.count
          if result < 0 then
            ⟨|result|, p.owner, currentState.owner, 0, currentState.type⟩
          else { currentState with count := result }
      { updates := setAssoc target.id st1 acc.updates,
        events := acc.events ++ [ev],
        survivors := acc.survivors, changed := true }
  else { acc with survivors := acc.survivors ++ [p] }

/-- The write-back of one nodeUpdates entry into a node; `type` is not
written (the source copies only count, owner, prevOwner and
captureProgress). -/
def applyArrState (n : Node) (u : ArrState) : Node :=
  { n with
      count := u.count
      owner := u.owner
      prevOwner := u.prevOwner
      captureProgress := u.captureProgress }

/-- Write the accumulated nodeUpdates back into the node list. -/
def applyNodeUpdates (updates : List (String × ArrState)) (nodes : List Node) :
    List Node :=
  nodes.map fun n =>
    match getAssoc n.id updates with
    | some u => applyArrState n u
    | none => n

/-- Result of phase 6. -/
structure ArrivalOut where
  nodes : List Node
  survivors : List TravelPayload
  events : List GameEvent
  changed : Bool

/-- Phase 6 bundled: fold every moved payload through arrivalStep and write
the accumulated updates back. -/
def arrivalPhase (nodes : List Node) (removed : List ℕ)
    (moved : List TravelPayload) : ArrivalOut :=
  let acc := moved.foldl (arrivalStep nodes removed) ⟨[], [], [], false⟩
  ⟨applyNodeUpdates acc.updates nodes, acc.survivors, acc.events, acc.changed⟩

/-- advanceGameState from gamePhysics.ts: topology shift and severance,
growth, transfer spawning, AI moves, payload movement with collision, and
arrival resolution, in that order. -/
def advanceGameState (O : Oracle) (currentWorld : GameWorld)
    (ctx : PhysicsContext) : PhysicsResult :=
  let newEdges :=
    if TopoShiftDue ctx then regenerateTopology O currentWorld.nodes currentWorld.edges
    else currentWorld.edges
  let payloads1 :=
    if TopoShiftDue ctx then
      currentWorld.payloads.filter fun p => edgeJoins newEdges p.sourceId p.targetId
    else currentWorld.payloads
  let transfers1 :=
    if TopoShiftDue ctx then
      currentWorld.transfers.filter fun t => edgeJoins newEdges t.sourceId t.targetId
    else currentWorld.transfers
  let updatedNextEventTime :=
    if TopoShiftDue ctx then ctx.now + OCEAN_CURRENT_INTERVAL_MS else ctx.nextEventTime
  let nodes2 := currentWorld.nodes.map (growNode O)
  let changed2 := currentWorld.nodes.any fun n =>
    n.captureProgress < 1 ∨ (n.owner ≠ .GRAY ∧ 1 ≤ growAccOf O n)
  let s := transfers1.foldl (spawnStep O ctx.now)
    ⟨nodes2, payloads1, [], freshIdBase payloads1, false⟩
  let tempWorld : GameWorld := ⟨s.nodes, newEdges, s.payloads, s.surviving, []⟩
  let moves :=
    if AIDue ctx then
      calculateAIMoves O tempWorld ctx.playerColor ctx.difficulty ctx.isPlayerAutoPilot
    else []
  let transfers4 := moves.foldl (aiApplyMove s.nodes) s.surviving
  let updatedLastAITime := if AIDue ctx then ctx.now else ctx.lastAITime
  let moved := s.payloads.map movePayload
  let removed := collisionRemovals O moved
  let arr := arrivalPhase s.nodes removed moved
  let hasChanges := decide (TopoShiftDue ctx) || changed2 || s.changed ||
    (decide (AIDue ctx) && !moves.isEmpty) || !removed.isEmpty || arr.changed ||
    !arr.events.isEmpty
  ⟨⟨arr.nodes, newEdges, arr.survivors, transfers4, arr.events⟩,
    updatedLastAITime, updatedNextEventTime, hasChanges⟩

/-- The requiredAction tags of the tutorial script (data/tutorialSteps.ts). -/
inductive RequiredAction
  | NEXT | SELECT | ATTACK | CAPTURE | STREAM | WIN
deriving DecidableEq, Inhabited

/-- One tutorial step (only the fields handleAttack consults). -/
structure TutorialStepInfo where
  id : ℕ
  requiredAction : RequiredAction
deriving DecidableEq, Inhabited

/-- TUTORIAL_STEPS from data/tutorialSteps.ts. -/
def TUTORIAL_STEPS : List TutorialStepInfo :=
  [⟨0, .NEXT⟩, ⟨1, .SELECT⟩, ⟨2, .ATTACK⟩, ⟨3, .CAPTURE⟩, ⟨4, .NEXT⟩,
   ⟨5, .NEXT⟩, ⟨6, .NEXT⟩, ⟨7, .STREAM⟩, ⟨8, .WIN⟩]

/-- handleAttack from useGameEngine.ts, restricted to its effect on the
world (the tutorial-step advancement touches only React UI state).  The
requesting color is the hook's current playerColor. -/
def handleAttack (gameState : GState) (playerColor : PlayerColor)
    (tutorialStep : ℕ) (world : GameWorld) (fromId toId : String)
    (isContinuous : Bool) : GameWorld :=
  if gameState ≠ .PLAYING ∧ gameState ≠ .TUTORIAL then world
  else if gameState = .TUTORIAL ∧
      (TUTORIAL_STEPS.getD tutorialStep default).requiredAction = .SELECT ∧
      fromId ≠ "tutorial-player" then world
  else
    match world.nodes.find? (fun n => n.id = fromId),
          world.nodes.find? (fun n => n.id = toId) with
    | some source, some target =>
      if source.owner ≠ playerColor then world
      else
        let amountToSend : WithTop ℚ :=
          if isContinuous then ⊤ else ((⌊source.count / 2⌋ : ℚ) : WithTop ℚ)
        if amountToSend < 1 then world
        else if world.transfers.any (fun t => t.sourceId = fromId ∧ t.targetId = toId) then
          let mergeInto := fun (existing : ActiveTransfer) =>
            { existing with totalToSend :=
                if isContinuous then ⊤
                else if existing.totalToSend ≠ ⊤ then
                  existing.totalToSend + amountToSend
                else existing.totalToSend }
          let merged := updateFirst
            (fun t => t.sourceId = fromId ∧ t.targetId = toId) mergeInto world.transfers
          { world with transfers := merged }
        else
          let fresh : ActiveTransfer :=
            ⟨"trans", source.id, target.id, source.owner, amountToSend, 0, 0,
              source.x, source.y, target.x, target.y⟩
          { world with transfers := world.transfers ++ [fresh] }
    | _, _ => world

/-- The absolute-time references the engine keeps outside the world. -/
structure EngineTimers where
  lastTickTime : ℚ
  lastAITime : ℚ
  nextEventTime : ℚ
deriving DecidableEq

/-- The resume branch of togglePause in useGameEngine.ts: every absolute
timer reference and every transfer's lastSpawnTime moves forward by the
pause duration; nothing else changes. -/
def resumeFromPause (world : GameWorld) (tm : EngineTimers) (duration : ℚ) :
    GameWorld × EngineTimers :=
  ({ world with transfers := world.transfers.map fun t =>
      { t with lastSpawnTime := t.lastSpawnTime + duration } },
   ⟨tm.lastTickTime + duration, tm.lastAITime + duration,
    tm.nextEventTime + duration⟩)

/-- Spec-side single-arrival resolution, written from the specification's
words (section 4.4): reinforcement adds the payload's count; an attack
deals its count as damage, halved against a FORTRESS; a negative result
captures the node at the absolute deficit, resetting captureProgress and
recording the previous owner, with the type preserved. -/
def arrivalSpecStep (st : ArrState) (p : TravelPayload) : ArrState :=
  if st.owner = p.owner then { st with count := st.count + p.count }
  else
    let damage := if st.type = .FORTRESS then p.count / 2 else p.count
    let result := st.count - damage
    if result < 0 then ⟨|result|, p.owner, st.owner, 0, st.type⟩
    else { st with count := result }

/-- The payloads that resolve against node `id` this tick, in list order:
not removed by collision, arrived, and targeting `id`. -/
def arrivalsFor (removed : List ℕ) (id : String) (ps : List TravelPayload) :
    List TravelPayload :=
  ps.filter fun p => p.id ∉ removed ∧ 1 ≤ p.progress ∧ p.targetId = id

/-- One hop along some edge, in either orientation. -/
def EdgeAdj (edges : List Edge) (a b : String) : Prop :=
  edgeJoins edges a b = true

/-- Graph connectivity between two ids along the given edge list. -/
def EdgeConnected (edges : List Edge) (a b : String) : Prop :=
  Relation.ReflTransGen (EdgeAdj edges) a b

/-- The PERMANENT edges of the list alone already connect every pair of
nodes. -/
def PermSpans (nodes : List Node) (edges : List Edge) : Prop :=
  ∀ a ∈ nodes, ∀ b ∈ nodes,
    EdgeConnected (edges.filter fun e => e.type = .PERMANENT) a.id b.id

/-- Worlds reachable from a freshly generated map (startGame installs the
generated nodes and edges with empty payload, transfer and event lists)
under any sequence of ticks, attack commands and pause resumes. -/
inductive ReachableWorld : GameWorld → Prop
  | init (nodes : List Node) (edges : List Edge) :
      ReachableWorld ⟨nodes, edges, [], [], []⟩
  | tick (w : GameWorld) (O : Oracle) (ctx : PhysicsContext) :
      ReachableWorld w → ReachableWorld (advanceGameState O w ctx).world
  | attack (w : GameWorld) (gs : GState) (pc : PlayerColor) (step : ℕ)
      (fromId toId : String) (cont : Bool) :
      ReachableWorld w → ReachableWorld (handleAttack gs pc step w fromId toId cont)
  | resume (w : GameWorld) (tm : EngineTimers) (d : ℚ) :
      ReachableWorld w → ReachableWorld (resumeFromPause w tm d).1

/-! Concrete inputs used by the witnesses and counterexamples below. -/

/-- A fixed oracle: all transcendentals return 0, shuffles are the
identity, hesitation and jitter draw 0, the action gate draws 1. -/
def oracleZero : Oracle :=
  ⟨fun _ _ => 0, fun _ => 0, fun _ => 0, fun l => l, fun _ => 0,
   fun _ _ => 0, fun _ => 1, fun l => l⟩

/-- A context for a mid-game PLAYING tick: no topology shift due (the next
event time is far away) and no AI action due. -/
def ctxQuiet : PhysicsContext :=
  ⟨100, 50, 100, 99999, .BLUE, .PLAYING, .L3, false, 0⟩

/-- A context in which the scheduled topology shift is due. -/
def ctxShift : PhysicsContext :=
  ⟨100, 50, 100, 90, .BLUE, .PLAYING, .L3, false, 0⟩

/-- A context in which the AI cadence has elapsed (difficulty 6: no
hesitation, unlimited actions). -/
def ctxAI : PhysicsContext :=
  ⟨10000, 9950, 0, 99999, .BLUE, .PLAYING, .L6, false, 0⟩

/-- A node literal: BLUE, 10 units, at the origin. -/
def nA10 : Node := ⟨"A", 0, 0, .BLUE, 10, 150, 19, 0, 1, .BLUE, .DEFAULT⟩

/-- A neutral node literal with 5 units. -/
def nB5 : Node := ⟨"B", 50, 0, .GRAY, 5, 150, 19, 0, 1, .GRAY, .DEFAULT⟩

/-- Two owned-plus-neutral nodes with no edge between them. -/
def wNoEdge : GameWorld := ⟨[nA10, nB5], [], [], [], []⟩

/-- An existing finite transfer A to B with goal 8 and 3 already sent. -/
def tGoal8 : ActiveTransfer := ⟨"t1", "A", "B", .BLUE, ((8 : ℚ) : WithTop ℚ), 3, 77, 0, 0, 50, 0⟩

/-- A BLUE source of 20 units next to a neutral node, with the finite
transfer `tGoal8` already active on the pair. -/
def wMerge : GameWorld :=
  ⟨[⟨"A", 0, 0, .BLUE, 20, 150, 19, 0, 1, .BLUE, .DEFAULT⟩, nB5],
   [⟨"A", "B", .PERMANENT⟩], [], [tGoal8], []⟩

/-- A RED node of count 0 (still nonnegative). -/
def nRed0 : Node := ⟨"A", 0, 0, .RED, 0, 150, 19, 0, 1, .RED, .DEFAULT⟩

/-- An in-flight reinforcement payload of count -1 arriving at "A". -/
def payNeg : TravelPayload := ⟨7, "B", "A", .RED, -1, 1, 0, 0, 0, 100, 0⟩

/-- A world whose node counts are all nonnegative but carrying a payload
of negative count. -/
def wNegPayload : GameWorld := ⟨[nRed0], [], [payNeg], [], []⟩

/-- An ordinary world: one RED node of 3 units and one arriving unit
payload. -/
def wUnit : GameWorld :=
  ⟨[⟨"A", 0, 0, .RED, 3, 150, 19, 0, 1, .RED, .DEFAULT⟩], [],
   [⟨1, "B", "A", .RED, 1, 1, 0, 0, 0, 100, 0⟩], [], []⟩

/-- A neutral FORTRESS of count 5 (the capture-arithmetic example). -/
def nFort5 : Node := ⟨"f", 0, 0, .RED, 5, 150, 19, 0, 1, .RED, .FORTRESS⟩

/-- An attacking payload of count 12 against the fortress. -/
def pay12 : TravelPayload := ⟨1, "s", "f", .BLUE, 12, 1, 0, 0, 0, 100, 0⟩

/-- Collision counterexample payloads: pColR and pColQ travel A to B for
RED, pColP travels B to A for BLUE; everyone sits at mid-path with speed
0. -/
def pColR : TravelPayload := ⟨1, "A", "B", .RED, 1, 1/2, 0, 0, 0, 100, 0⟩

/-- The opposing BLUE payload. -/
def pColP : TravelPayload := ⟨2, "B", "A", .BLUE, 1, 1/2, 0, 100, 0, 0, 0⟩

/-- A second RED payload behind pColR. -/
def pColQ : TravelPayload := ⟨3, "A", "B", .RED, 1, 1/2, 0, 0, 0, 100, 0⟩

/-- Three payloads on one edge: the scan annihilates pColR with pColP and
then skips the pColP-pColQ pair. -/
def wThree : GameWorld := ⟨[], [], [pColR, pColP, pColQ], [], []⟩

/-- Exactly one opposing pair in flight. -/
def wPair : GameWorld := ⟨[nRed0], [], [pColR, pColP], [], []⟩

/-- Two same-owner payloads converging head-on (launched from opposite
ends). -/
def pSameA : TravelPayload := ⟨4, "A", "B", .RED, 1, 1/2, 0, 0, 0, 100, 0⟩

/-- The other same-owner payload. -/
def pSameB : TravelPayload := ⟨5, "B", "A", .RED, 1, 1/2, 0, 100, 0, 0, 0⟩

/-- AI counterexample world: RED node of 10 adjacent to a weak neutral,
with a finite RED transfer already active on the same pair. -/
def wAI : GameWorld :=
  ⟨[⟨"A", 0, 0, .RED, 10, 150, 19, 0, 1, .RED, .DEFAULT⟩, nB5],
   [⟨"A", "B", .PERMANENT⟩], [],
   [⟨"t0", "A", "B", .RED, ((8 : ℚ) : WithTop ℚ), 0, 9999, 0, 0, 50, 0⟩], []⟩

/-- Severance witness world: three nodes, a stale RANDOM edge A-C, and two
payloads, one of which rides the soon-to-vanish A-C connection. -/
def wSever : GameWorld :=
  ⟨[nA10, nB5, ⟨"C", 0, 50, .GRAY, 7, 150, 19, 0, 1, .GRAY, .DEFAULT⟩],
   [⟨"A", "C", .RANDOM⟩],
   [⟨1, "A", "C", .BLUE, 1, 1/2, 0, 0, 0, 0, 50⟩,
    ⟨2, "A", "B", .BLUE, 1, 1/2, 0, 0, 0, 50, 0⟩],
   [], []⟩

/-!  Theorems.  The core rational operations are irreducible by default,
which blocks kernel evaluation of concrete instances; they are restored to
their ordinary reducibility for this development. -/

attribute [local semireducible] Rat.mul Rat.add Rat.sub Rat.inv

/-- C9: resuming after a pause of duration D shifts the last-tick
timestamp, the AI cadence timer and the next-topology-shift time forward
by exactly D, shifts every transfer's lastSpawnTime forward by exactly D,
changes no other field of the world, and shifts every throttle gate so
that no topology shift, AI action or transfer spawn fires earlier than it
would have fired without the pause. -/
theorem pause_resume_time_shift (w : GameWorld) (tm : EngineTimers) (D : ℚ) :
    (resumeFromPause w tm D).2.lastTickTime = tm.lastTickTime + D ∧
    (resumeFromPause w tm D).2.lastAITime = tm.lastAITime + D ∧
    (resumeFromPause w tm D).2.nextEventTime = tm.nextEventTime + D ∧
    (resumeFromPause w tm D).1.nodes = w.nodes ∧
    (resumeFromPause w tm D).1.edges = w.edges ∧
    (resumeFromPause w tm D).1.payloads = w.payloads ∧
    (resumeFromPause w tm D).1.latestEvents = w.latestEvents ∧
    (resumeFromPause w tm D).1.transfers =
      w.transfers.map (fun t => { t with lastSpawnTime := t.lastSpawnTime + D }) ∧
    (∀ ctx : PhysicsContext, ctx.nextEventTime = tm.nextEventTime + D →
      (TopoShiftDue ctx ↔
        TopoShiftDue { ctx with now := ctx.now - D, nextEventTime := tm.nextEventTime })) ∧
    (∀ ctx : PhysicsContext, ctx.lastAITime = tm.lastAITime + D →
      (AIDue ctx ↔
        AIDue { ctx with now := ctx.now - D, lastAITime := tm.lastAITime })) ∧
    (∀ t ∈ w.transfers, ∀ now interval : ℚ,
      (SpawnDue now { t with lastSpawnTime := t.lastSpawnTime + D } interval ↔
        SpawnDue (now - D) t interval)) := by
  refine ⟨rfl, rfl, rfl, rfl, rfl, rfl, rfl, rfl, ?_, ?_, ?_⟩
  · intro ctx h
    unfold TopoShiftDue
    simp only [h]
    constructor
    · rintro ⟨hg, hle⟩
      exact ⟨hg, by linarith⟩
    · rintro ⟨hg, hle⟩
      exact ⟨hg, by linarith⟩
  · intro ctx h
    unfold AIDue
    simp only [h]
    constructor
    · rintro ⟨hg, hlt⟩
      exact ⟨hg, by linarith⟩
    · rintro ⟨hg, hlt⟩
      exact ⟨hg, by linarith⟩
  · intro t _ now interval
    unfold SpawnDue
    constructor
    · intro hlt
      simp only at hlt
      linarith
    · intro hlt
      simp only
      linarith

/-- C9 witness: the shift applied to a one-transfer world at D = 5. -/
theorem pause_resume_time_shift_witness :
    (resumeFromPause wMerge ⟨1, 2, 3⟩ 5).2 = ⟨6, 7, 8⟩ ∧
    (resumeFromPause wMerge ⟨1, 2, 3⟩ 5).1.transfers.map
      (fun t => t.lastSpawnTime) = [82] := by
  have h := pause_resume_time_shift wMerge ⟨1, 2, 3⟩ 5
  exact ⟨by decide, by decide⟩

/-- C7 counterexample: handleAttack performs no adjacency check.  In a
world with no edge between A and B, a PLAYING attack by the owner of A
succeeds (a transfer is created), so the operation is not a no-op on a
non-adjacent pair. -/
theorem handleAttack_no_adjacency_counterexample :
    edgeJoins wNoEdge.edges "A" "B" = false ∧
    (∃ s, wNoEdge.nodes.find? (fun n => n.id = "A") = some s ∧ s.owner = .BLUE) ∧
    (handleAttack .PLAYING .BLUE 0 wNoEdge "A" "B" false).transfers.length = 1 ∧
    handleAttack .PLAYING .BLUE 0 wNoEdge "A" "B" false ≠ wNoEdge := by
  refine ⟨by decide, ⟨nA10, by decide, by decide⟩, by decide, by decide⟩

/-- C7 amended: handleAttack validates that the game is in progress, that
source and target exist, that the source is owned by the requesting color
and that the computed amount is at least 1 — but not adjacency — and on
any of those invalid inputs it silently returns the world unchanged. -/
theorem handleAttack_silent_noop (gs : GState) (pc : PlayerColor) (step : ℕ)
    (w : GameWorld) (fromId toId : String) (cont : Bool)
    (h : (gs ≠ .PLAYING ∧ gs ≠ .TUTORIAL) ∨
         w.nodes.find? (fun n => n.id = fromId) = none ∨
         w.nodes.find? (fun n => n.id = toId) = none ∨
         (∃ s, w.nodes.find? (fun n => n.id = fromId) = some s ∧ s.owner ≠ pc) ∨
         (cont = false ∧
           ∃ s, w.nodes.find? (fun n => n.id = fromId) = some s ∧ ⌊s.count / 2⌋ < 1)) :
    handleAttack gs pc step w fromId toId cont = w := by
  rcases h with hgs | hf | ht | ⟨s, hs, hso⟩ | ⟨hc, s, hs, hlt⟩ <;> unfold handleAttack
  · rw [if_pos hgs]
  · split
    · rfl
    split
    · rfl
    rw [hf]
  · split
    · rfl
    split
    · rfl
    rw [ht]
    cases hx : w.nodes.find? (fun n => n.id = fromId) <;> rfl
  · split
    · rfl
    split
    · rfl
    rw [hs]
    cases htx : w.nodes.find? (fun n => n.id = toId)
    · rfl
    · dsimp only
      rw [if_pos hso]
  · subst hc
    split
    · rfl
    split
    · rfl
    rw [hs]
    cases htx : w.nodes.find? (fun n => n.id = toId)
    · rfl
    · dsimp only
      by_cases ho : s.owner ≠ pc
      · rw [if_pos ho]
      · rw [if_neg ho, if_neg Bool.false_ne_true, if_pos]
        exact_mod_cast hlt

/-- C7 amended witness: attacking from a node the player does not own is a
no-op. -/
theorem handleAttack_silent_noop_witness :
    handleAttack .PLAYING .RED 0 wNoEdge "A" "B" false = wNoEdge :=
  handleAttack_silent_noop .PLAYING .RED 0 wNoEdge "A" "B" false
    (Or.inr (Or.inr (Or.inr (Or.inl ⟨nA10, by decide, by decide⟩))))

/-- Replacing the first match keeps the list length. -/
theorem updateFirst_length (p : α → Bool) (f : α → α) (l : List α) :
    (updateFirst p f l).length = l.length := by
  induction l with
  | nil => rfl
  | cons a as ih =>
    unfold updateFirst
    split <;> simp [ih]

/-- updateFirst rewrites exactly the first match of a decomposed list. -/
theorem updateFirst_first_match (p : α → Bool) (f : α → α) (pre : List α) (a : α)
    (post : List α) (hpre : ∀ b ∈ pre, p b = false) (ha : p a = true) :
    updateFirst p f (pre ++ a :: post) = pre ++ f a :: post := by
  induction pre with
  | nil => simp [updateFirst, ha]
  | cons b bs ih =>
    have hb := hpre b (List.mem_cons_self b bs)
    simp only [List.cons_append, updateFirst, hb]
    simp only [Bool.false_eq_true, if_false, List.cons.injEq, true_and]
    exact ih fun x hx => hpre x (List.mem_cons_of_mem _ hx)

/-- C4: an attack on a pair that already has an ActiveTransfer merges into
it: the transfer list keeps its length, every transfer before and after
the first match is untouched, and the first matching transfer changes only
its totalToSend — to the unbounded sentinel for a continuous order,
otherwise (if the existing goal is finite) increased by the new amount
floor(source.count / 2) — while its sentCount and lastSpawnTime are
preserved. -/
theorem handleAttack_merge_semantics (pc : PlayerColor) (step : ℕ) (w : GameWorld)
    (fromId toId : String) (cont : Bool) (s : Node)
    (hsrc : w.nodes.find? (fun n => n.id = fromId) = some s)
    (howner : s.owner = pc)
    (tgt : Node) (htgt : w.nodes.find? (fun n => n.id = toId) = some tgt)
    (hamt : cont = true ∨ 1 ≤ ⌊s.count / 2⌋)
    (pre post : List ActiveTransfer) (a : ActiveTransfer)
    (hsplit : w.transfers = pre ++ a :: post)
    (hpre : ∀ b ∈ pre, ¬(b.sourceId = fromId ∧ b.targetId = toId))
    (ha : a.sourceId = fromId ∧ a.targetId = toId) :
    (handleAttack .PLAYING pc step w fromId toId cont).transfers =
      pre ++ { a with totalToSend :=
          if cont = true then ⊤
          else if a.totalToSend = ⊤ then a.totalToSend
          else a.totalToSend + ((⌊s.count / 2⌋ : ℚ) : WithTop ℚ) } :: post ∧
    (handleAttack .PLAYING pc step w fromId toId cont).transfers.length =
      w.transfers.length := by
  have hany : (w.transfers.any fun t => t.sourceId = fromId ∧ t.targetId = toId) = true := by
    rw [hsplit]
    simp [ha.1, ha.2]
  have hmerged :
      updateFirst (fun t => t.sourceId = fromId ∧ t.targetId = toId)
          (fun existing =>
            { existing with totalToSend :=
                if cont = true then ⊤
                else if existing.totalToSend ≠ ⊤ then
                  existing.totalToSend +
                    (if cont = true then ⊤ else ((⌊s.count / 2⌋ : ℚ) : WithTop ℚ))
                else existing.totalToSend })
          w.transfers =
        pre ++ { a with totalToSend :=
            if cont = true then ⊤
            else if a.totalToSend = ⊤ then a.totalToSend
            else a.totalToSend + ((⌊s.count / 2⌋ : ℚ) : WithTop ℚ) } :: post := by
    rw [hsplit]
    rw [updateFirst_first_match _ _ pre a post
      (fun b hb => decide_eq_false (hpre b hb)) (decide_eq_true ha)]
    rcases cont with _ | _
    · by_cases htop : a.totalToSend = ⊤ <;> simp [htop]
    · simp
  constructor
  · unfold handleAttack
    rw [if_neg (fun h => h.1 rfl), if_neg (fun h => absurd h.1 (by decide)),
      hsrc, htgt]
    dsimp only
    rw [if_neg (fun h => h howner)]
    rcases cont with _ | _
    · have hge := hamt.resolve_left (by simp)
      rw [if_neg Bool.false_ne_true, if_neg (by exact_mod_cast not_lt.mpr hge),
        if_pos hany]
      dsimp only
      exact hmerged
    · rw [if_pos rfl, if_neg (not_top_lt), if_pos hany]
      dsimp only
      exact hmerged
  · unfold handleAttack
    rw [if_neg (fun h => h.1 rfl), if_neg (fun h => absurd h.1 (by decide)),
      hsrc, htgt]
    dsimp only
    rw [if_neg (fun h => h howner)]
    rcases cont with _ | _
    · have hge := hamt.resolve_left (by simp)
      rw [if_neg Bool.false_ne_true, if_neg (by exact_mod_cast not_lt.mpr hge),
        if_pos hany]
      dsimp only
      exact updateFirst_length _ _ _
    · rw [if_pos rfl, if_neg (not_top_lt), if_pos hany]
      dsimp only
      exact updateFirst_length _ _ _

/-- C4 witness: the specification's example — a finite attack of 10 (half
of a source of 20) onto an existing finite transfer with goal 8 and 3
sent yields one transfer with goal 18, sent 3, lastSpawnTime intact. -/
theorem handleAttack_merge_witness :
    (handleAttack .PLAYING .BLUE 0 wMerge "A" "B" false).transfers =
      [⟨"t1", "A", "B", .BLUE, ((18 : ℚ) : WithTop ℚ), 3, 77, 0, 0, 50, 0⟩] ∧
    (handleAttack .PLAYING .BLUE 0 wMerge "A" "B" false).transfers.length =
      wMerge.transfers.length := by
  have h := handleAttack_merge_semantics .BLUE 0 wMerge "A" "B" false
      ⟨"A", 0, 0, .BLUE, 20, 150, 19, 0, 1, .BLUE, .DEFAULT⟩ (by decide) (by decide)
      nB5 (by decide) (Or.inr (by decide)) [] [] tGoal8 (by decide)
      (fun b hb => absurd hb (List.not_mem_nil b)) (by decide)
  exact ⟨by decide, by decide⟩

/-- With pairwise distinct ids, find-by-id returns the member itself. -/
theorem find_id_of_nodup (nodes : List Node) (n : Node)
    (hnodup : (nodes.map Node.id).Nodup) (hmem : n ∈ nodes) :
    nodes.find? (fun m => m.id = n.id) = some n := by
  induction nodes with
  | nil => cases hmem
  | cons a as ih =>
    rw [List.map_cons, List.nodup_cons] at hnodup
    obtain ⟨hids, htail⟩ := hnodup
    rcases List.mem_cons.mp hmem with rfl | hmem'
    · rw [List.find?_cons_of_pos _ (by simp)]
    · have hne : ¬(a.id = n.id) :=
        fun h => hids (h ▸ List.mem_map_of_mem Node.id hmem')
      rw [List.find?_cons_of_neg _ (by simpa using hne)]
      exact ih htail hmem'

/-- Reading back the key just written. -/
theorem getAssoc_setAssoc_self (k : String) (v : ArrState) (u : List (String × ArrState)) :
    getAssoc k (setAssoc k v u) = some v := by
  induction u with
  | nil => simp [setAssoc, getAssoc]
  | cons kv rest ih =>
    unfold setAssoc
    by_cases h : kv.1 = k
    · rw [if_pos h]
      simp [getAssoc]
    · rw [if_neg h]
      unfold getAssoc
      rw [if_neg h]
      exact ih

/-- Writing a different key leaves a lookup unchanged. -/
theorem getAssoc_setAssoc_ne (k k' : String) (v : ArrState)
    (u : List (String × ArrState)) (h : k' ≠ k) :
    getAssoc k (setAssoc k' v u) = getAssoc k u := by
  induction u with
  | nil => simp [setAssoc, getAssoc, h]
  | cons kv rest ih =>
    unfold setAssoc
    by_cases hh : kv.1 = k'
    · rw [if_pos hh]
      unfold getAssoc
      rw [if_neg (hh ▸ h), if_neg (hh ▸ h)]
    · rw [if_neg hh]
      unfold getAssoc
      by_cases hk : kv.1 = k
      · rw [if_pos hk, if_pos hk]
      · rw [if_neg hk, if_neg hk]
        exact ih

/-- The running combat state a single arrival produces in the engine
equals the spec-side step. -/
theorem arrivalStep_state_eq_spec (cur : ArrState) (p : TravelPayload) :
    (if cur.owner = p.owner then { cur with count := cur.count + p.count }
     else
       let result := cur.count - incomingDamageOf cur p.count
       if result < 0 then ⟨|result|, p.owner, cur.owner, 0, cur.type⟩
       else { cur with count := result }) = arrivalSpecStep cur p := by
  unfold arrivalSpecStep incomingDamageOf
  by_cases ho : cur.owner = p.owner
  · simp [ho]
  · rw [if_neg ho, if_neg ho]
    by_cases hf : cur.type = .FORTRESS <;> simp [hf, div_eq_mul_inv]

/-- Folding the arrival loop accumulates, per node id, exactly the
spec-side fold over the payloads that resolve against that id. -/
theorem arrival_fold_lookup (nodes : List Node) (removed : List ℕ) (id : String)
    (n0 : Node) (hfind : nodes.find? (fun m => m.id = id) = some n0)
    (ps : List TravelPayload) :
    ∀ acc : ArrivalAcc,
      ((getAssoc id (ps.foldl (arrivalStep nodes removed) acc).updates).getD
          (initArrState n0)) =
        (arrivalsFor removed id ps).foldl arrivalSpecStep
          ((getAssoc id acc.updates).getD (initArrState n0)) := by
  induction ps with
  | nil => intro acc; rfl
  | cons p ps ih =>
    intro acc
    rw [List.foldl_cons]
    by_cases hrem : p.id ∈ removed
    · rw [show arrivalStep nodes removed acc p = acc from if_pos hrem]
      rw [show arrivalsFor removed id (p :: ps) = arrivalsFor removed id ps from by
        unfold arrivalsFor
        rw [List.filter_cons_of_neg (by simp [hrem])]]
      exact ih acc
    · by_cases hprog : 1 ≤ p.progress
      · by_cases hid : p.targetId = id
        · subst hid
          have hn0id : n0.id = p.targetId := by
            have := List.find?_some hfind
            simpa using this
          rw [show arrivalsFor removed p.targetId (p :: ps) =
              p :: arrivalsFor removed p.targetId ps from by
            unfold arrivalsFor
            rw [List.filter_cons_of_pos (by simp [hrem, hprog])]]
          rw [List.foldl_cons]
          have hstep : arrivalStep nodes removed acc p =
              { updates := setAssoc n0.id
                  (arrivalSpecStep
                    ((getAssoc n0.id acc.updates).getD (initArrState n0)) p)
                  acc.updates,
                events := acc.events ++
                  [⟨n0.id,
                    min 1 (30 / max 20
                      (((getAssoc n0.id acc.updates).getD (initArrState n0)).count)),
                    p.owner⟩],
                survivors := acc.survivors, changed := true } := by
            unfold arrivalStep
            rw [if_neg hrem, if_pos hprog, hfind]
            dsimp only
            rw [hn0id, ← arrivalStep_state_eq_spec]
          rw [hstep, ih]
          refine congrArg
            (fun st => (arrivalsFor removed p.targetId ps).foldl arrivalSpecStep st) ?_
          rw [hn0id, getAssoc_setAssoc_self]
          rfl
        · have harr : arrivalsFor removed id (p :: ps) = arrivalsFor removed id ps := by
            unfold arrivalsFor
            rw [List.filter_cons_of_neg (by simp [hid])]
          rw [harr]
          cases hfx : nodes.find? (fun m => m.id = p.targetId) with
          | none =>
            rw [show arrivalStep nodes removed acc p = { acc with changed := true } from by
              unfold arrivalStep
              rw [if_neg hrem, if_pos hprog, hfx]]
            exact ih _
          | some t =>
            have htid : t.id = p.targetId := by
              have := List.find?_some hfx
              simpa using this
            have hstep : (arrivalStep nodes removed acc p).updates =
                setAssoc t.id
                  ((fun cur =>
                    if cur.owner = p.owner then { cur with count := cur.count + p.count }
                    else
                      let result := cur.count - incomingDamageOf cur p.count
                      if result < 0 then ⟨|result|, p.owner, cur.owner, 0, cur.type⟩
                      else { cur with count := result })
                    ((getAssoc t.id acc.updates).getD (initArrState t)))
                  acc.updates := by
              unfold arrivalStep
              rw [if_neg hrem, if_pos hprog, hfx]
            rw [ih]
            refine congrArg
              (fun st => (arrivalsFor removed id ps).foldl arrivalSpecStep st) ?_
            rw [hstep, getAssoc_setAssoc_ne _ _ _ _ (htid ▸ hid)]
      · have harr : arrivalsFor removed id (p :: ps) = arrivalsFor removed id ps := by
          unfold arrivalsFor
          rw [List.filter_cons_of_neg (by simp [hprog])]
        rw [harr,
          show arrivalStep nodes removed acc p =
            { acc with survivors := acc.survivors ++ [p] } from by
          unfold arrivalStep
          rw [if_neg hrem, if_neg hprog]]
        exact ih _

/-- The write-back step resolves find-by-id through the updates map. -/
theorem applyNodeUpdates_find (updates : List (String × ArrState))
    (nodes : List Node) (id : String) (n0 : Node)
    (hfind : nodes.find? (fun m => m.id = id) = some n0) :
    (applyNodeUpdates updates nodes).find? (fun m => m.id = id) =
      some (applyArrState n0 ((getAssoc id updates).getD (initArrState n0))) := by
  induction nodes with
  | nil => cases hfind
  | cons a as ih =>
    have hidkeep : (match getAssoc a.id updates with
        | some u => applyArrState a u
        | none => a).id = a.id := by
      cases getAssoc a.id updates <;> rfl
    by_cases hpa : a.id = id
    · have ha : a = n0 := by
        have h1 : List.find? (fun m => decide (m.id = id)) (a :: as) = some a :=
          List.find?_cons_of_pos _ (by simp [hpa])
        exact Option.some.inj (h1.symm.trans hfind)
      subst ha
      unfold applyNodeUpdates
      rw [List.map_cons]
      rw [List.find?_cons_of_pos _ (by simp only [hidkeep]; simpa using hpa)]
      rw [hpa]
      cases hg : getAssoc id updates with
      | none => rfl
      | some u => rfl
    · have hfind' : as.find? (fun m => m.id = id) = some n0 := by
        rw [List.find?_cons_of_neg _ (by simpa using hpa)] at hfind
        exact hfind
      unfold applyNodeUpdates
      rw [List.map_cons]
      rw [List.find?_cons_of_neg _ (by simp only [hidkeep]; simpa using hpa)]
      exact ih hfind'

/-- C2: arrival resolution is the accumulated per-node fold, in payload
list order, of the spec's single-arrival rule — reinforcement adds the
payload count; an attack deals count damage, halved against a FORTRESS;
a negative result captures the node (owner becomes the attacker, count the
absolute deficit, prevOwner the old owner, captureProgress 0, type
preserved); a nonnegative result only lowers the count — each arrival
reading the running state left by the previous one, not the pre-tick
snapshot. -/
theorem arrival_resolution_accumulates (nodes : List Node) (removed : List ℕ)
    (ps : List TravelPayload) (n : Node) (hmem : n ∈ nodes)
    (hnodup : (nodes.map Node.id).Nodup) :
    (arrivalPhase nodes removed ps).nodes.find? (fun m => m.id = n.id) =
      some (applyArrState n
        ((arrivalsFor removed n.id ps).foldl arrivalSpecStep (initArrState n))) := by
  have hfind := find_id_of_nodup nodes n hnodup hmem
  unfold arrivalPhase
  dsimp only
  rw [applyNodeUpdates_find _ _ _ _ hfind]
  exact congrArg (fun st => some (applyArrState n st))
    (arrival_fold_lookup nodes removed n.id n hfind ps ⟨[], [], [], false⟩)

/-- C2 witness: the capture-arithmetic example — a FORTRESS of count 5 hit
by an enemy payload of count 12 takes effective damage 6 and flips to the
attacker with count 1, prevOwner recorded, captureProgress reset, type
kept. -/
theorem arrival_resolution_witness :
    (arrivalPhase [nFort5] [] [pay12]).nodes.find? (fun m => m.id = "f") =
      some ⟨"f", 0, 0, .BLUE, 1, 150, 19, 0, 0, .RED, .FORTRESS⟩ := by
  have h := arrival_resolution_accumulates [nFort5] [] [pay12] nFort5
    (by decide) (by decide)
  exact by decide

/-- Ink spreading never changes a node's count. -/
theorem inkStep_count (n : Node) : (inkStep n).count = n.count := by
  unfold inkStep
  split <;> rfl

/-- Growth never drives a count negative (it only ever adds a whole
number at least 1, or nothing). -/
theorem growNode_count_nonneg (O : Oracle) (n : Node) (h : 0 ≤ n.count) :
    0 ≤ (growNode O n).count := by
  unfold growNode
  dsimp only
  have h1 : (inkStep n).count = n.count := inkStep_count n
  split
  · split
    case isTrue hacc =>
      dsimp only
      have hfl : (1 : ℚ) ≤ (⌊growAccOf O (inkStep n)⌋ : ℚ) := by
        exact_mod_cast Int.le_floor.mpr (by exact_mod_cast hacc)
      rw [h1] at *
      linarith
    case isFalse _ =>
      dsimp only
      rw [h1]
      exact h
  · rw [h1]
    exact h

/-- updateFirst preserves any property that holds on the list and on the
image of the first match. -/
theorem updateFirst_forall (p : α → Bool) (f : α → α) (l : List α) (Q : α → Prop)
    (hl : ∀ x ∈ l, Q x) (hf : ∀ a, l.find? p = some a → Q (f a)) :
    ∀ x ∈ updateFirst p f l, Q x := by
  induction l with
  | nil => intro x hx; cases hx
  | cons a as ih =>
    intro x hx
    unfold updateFirst at hx
    by_cases hpa : p a = true
    · rw [if_pos hpa] at hx
      rcases List.mem_cons.mp hx with rfl | hx'
      · exact hf a (List.find?_cons_of_pos _ hpa)
      · exact hl x (List.mem_cons_of_mem _ hx')
    · rw [if_neg hpa] at hx
      rcases List.mem_cons.mp hx with rfl | hx'
      · exact hl x (List.mem_cons_self _ _)
      · exact ih (fun y hy => hl y (List.mem_cons_of_mem _ hy))
          (fun b hb => hf b (by rw [List.find?_cons_of_neg _ hpa]; exact hb))
          x hx'

/-- The joint invariant of the spawning loop: node counts and payload
counts stay nonnegative. -/
def SpawnInv (s : SpawnState) : Prop :=
  (∀ n ∈ s.nodes, 0 ≤ n.count) ∧ (∀ q ∈ s.payloads, 0 ≤ q.count)

/-- One spawning step preserves the invariant: the source is drained by 1
only when it holds at least 1 unit, and the spawned payload carries
count 1. -/
theorem spawnStep_inv (O : Oracle) (now : ℚ) (s : SpawnState) (t : ActiveTransfer)
    (h : SpawnInv s) : SpawnInv (spawnStep O now s t) := by
  unfold spawnStep
  cases hfx : s.nodes.find? (fun n => n.id = t.sourceId) with
  | none => exact h
  | some sourceNode =>
    dsimp only
    split
    · exact h
    · split
      case isTrue hcond =>
        refine ⟨?_, ?_⟩
        · refine updateFirst_forall _ _ _ _ h.1 ?_
          intro a hafind
          have ha : a = sourceNode := Option.some.inj (hafind.symm.trans hfx)
          subst ha
          dsimp only
          have hge : 1 ≤ a.count := hcond.2.2
          linarith
        · intro q hq
          rcases List.mem_append.mp hq with hq' | hq'
          · exact h.2 q hq'
          · have : q = _ := List.mem_singleton.mp hq'
            subst this
            norm_num
      case isFalse _ =>
        exact ⟨h.1, h.2⟩

/-- The whole spawning fold preserves the invariant. -/
theorem spawnFold_inv (O : Oracle) (now : ℚ) (ts : List ActiveTransfer)
    (s : SpawnState) (h : SpawnInv s) :
    SpawnInv (ts.foldl (spawnStep O now) s) := by
  induction ts generalizing s with
  | nil => exact h
  | cons t ts ih => exact ih _ (spawnStep_inv O now s t h)

/-- Looked-up assoc values are values of the list. -/
theorem getAssoc_mem (k : String) (u : List (String × ArrState)) (v : ArrState)
    (h : getAssoc k u = some v) : ∃ kv ∈ u, kv.2 = v := by
  induction u with
  | nil => cases h
  | cons kv rest ih =>
    unfold getAssoc at h
    by_cases hk : kv.1 = k
    · rw [if_pos hk] at h
      exact ⟨kv, List.mem_cons_self _ _, Option.some.inj h⟩
    · rw [if_neg hk] at h
      obtain ⟨kv', hmem, hv⟩ := ih h
      exact ⟨kv', List.mem_cons_of_mem _ hmem, hv⟩

/-- setAssoc preserves a value property: the new value must satisfy it. -/
theorem setAssoc_forall (Q : ArrState → Prop) (k : String) (v : ArrState)
    (u : List (String × ArrState)) (hu : ∀ kv ∈ u, Q kv.2) (hv : Q v) :
    ∀ kv ∈ setAssoc k v u, Q kv.2 := by
  induction u with
  | nil =>
    intro kv hkv
    rw [List.mem_singleton.mp hkv]
    exact hv
  | cons kv0 rest ih =>
    intro kv hkv
    unfold setAssoc at hkv
    by_cases hk : kv0.1 = k
    · rw [if_pos hk] at hkv
      rcases List.mem_cons.mp hkv with rfl | h'
      · exact hv
      · exact hu kv (List.mem_cons_of_mem _ h')
    · rw [if_neg hk] at hkv
      rcases List.mem_cons.mp hkv with rfl | h'
      · exact hu kv (List.mem_cons_self _ _)
      · exact ih (fun y hy => hu y (List.mem_cons_of_mem _ hy)) kv h'

/-- One arrival keeps every accumulated node state nonnegative: a
reinforcement adds a nonnegative payload count, damage stops at zero, and
a capture stores the absolute deficit. -/
theorem arrivalStep_updates_nonneg (nodes : List Node) (removed : List ℕ)
    (acc : ArrivalAcc) (p : TravelPayload)
    (hnodes : ∀ n ∈ nodes, 0 ≤ n.count) (hp : 0 ≤ p.count)
    (hacc : ∀ kv ∈ acc.updates, 0 ≤ kv.2.count) :
    ∀ kv ∈ (arrivalStep nodes removed acc p).updates, 0 ≤ kv.2.count := by
  unfold arrivalStep
  split
  · exact hacc
  · split
    · cases hfx : nodes.find? (fun n => n.id = p.targetId) with
      | none => exact hacc
      | some target =>
        dsimp only
        have hcur : 0 ≤ ((getAssoc target.id acc.updates).getD (initArrState target)).count := by
          cases hg : getAssoc target.id acc.updates with
          | none =>
            exact hnodes target (List.mem_of_find?_eq_some hfx)
          | some v =>
            obtain ⟨kv, hmem, hv⟩ := getAssoc_mem _ _ _ hg
            simpa [hv] using hacc kv hmem
        refine setAssoc_forall (fun st => 0 ≤ st.count) _ _ _ hacc ?_
        split
        · dsimp only
          linarith
        · split
          case isTrue _ => exact abs_nonneg _
          case isFalse hres =>
            dsimp only
            linarith [not_lt.mp hres]
    · exact hacc

/-- The folded arrival loop keeps every accumulated node state
nonnegative. -/
theorem arrivalFold_updates_nonneg (nodes : List Node) (removed : List ℕ)
    (moved : List TravelPayload) (acc : ArrivalAcc)
    (hnodes : ∀ n ∈ nodes, 0 ≤ n.count) (hmoved : ∀ p ∈ moved, 0 ≤ p.count)
    (hacc : ∀ kv ∈ acc.updates, 0 ≤ kv.2.count) :
    ∀ kv ∈ (moved.foldl (arrivalStep nodes removed) acc).updates, 0 ≤ kv.2.count := by
  induction moved generalizing acc with
  | nil => exact hacc
  | cons p ps ih =>
    exact ih _ (fun q hq => hmoved q (List.mem_cons_of_mem _ hq))
      (arrivalStep_updates_nonneg nodes removed acc p hnodes
        (hmoved p (List.mem_cons_self _ _)) hacc)

/-- Arrival resolution keeps every node count nonnegative. -/
theorem arrivalPhase_nodes_nonneg (nodes : List Node) (removed : List ℕ)
    (moved : List TravelPayload)
    (hnodes : ∀ n ∈ nodes, 0 ≤ n.count) (hmoved : ∀ p ∈ moved, 0 ≤ p.count) :
    ∀ n ∈ (arrivalPhase nodes removed moved).nodes, 0 ≤ n.count := by
  intro n hn
  unfold arrivalPhase at hn
  dsimp only at hn
  unfold applyNodeUpdates at hn
  obtain ⟨m, hm, rfl⟩ := List.mem_map.mp hn
  cases hg : getAssoc m.id
      (moved.foldl (arrivalStep nodes removed) ⟨[], [], [], false⟩).updates with
  | none =>
    simp only [hg]
    exact hnodes m hm
  | some u =>
    simp only [hg]
    obtain ⟨kv, hmem, hv⟩ := getAssoc_mem _ _ _ hg
    have := arrivalFold_updates_nonneg nodes removed moved ⟨[], [], [], false⟩
      hnodes hmoved (fun kv hkv => absurd hkv (List.not_mem_nil kv)) kv hmem
    simpa [applyArrState, hv] using this

/-- C1 counterexample: the claim quantifies only over node counts, but a
world whose node counts are all nonnegative can carry a payload of
negative count whose reinforcement arrival drives the target below
zero. -/
theorem advance_count_nonneg_counterexample :
    (∀ n ∈ wNegPayload.nodes, 0 ≤ n.count) ∧
    ∃ n ∈ (advanceGameState oracleZero wNegPayload ctxQuiet).world.nodes,
      n.count < 0 := by decide

/-- C1 amended: if additionally every in-flight payload count is
nonnegative, every node count after advanceGameState is nonnegative —
growth only adds, a spawn drains 1 only from a source of at least 1, a
damaging arrival stores a nonnegative result, and a capturing arrival
stores the absolute value of the deficit. -/
theorem advance_count_nonneg (O : Oracle) (w : GameWorld) (ctx : PhysicsContext)
    (hn : ∀ n ∈ w.nodes, 0 ≤ n.count) (hp : ∀ p ∈ w.payloads, 0 ≤ p.count) :
    ∀ n ∈ (advanceGameState O w ctx).world.nodes, 0 ≤ n.count := by
  intro n hmem
  simp only [advanceGameState] at hmem
  refine arrivalPhase_nodes_nonneg _ _ _ ?_ ?_ n hmem
  · refine (spawnFold_inv O ctx.now _ _ ⟨?_, ?_⟩).1
    · intro m hm
      dsimp only at hm
      obtain ⟨m0, hm0, rfl⟩ := List.mem_map.mp hm
      exact growNode_count_nonneg O m0 (hn m0 hm0)
    · intro q hq
      dsimp only at hq
      by_cases hs : TopoShiftDue ctx
      · rw [if_pos hs] at hq
        exact hp q (List.mem_of_mem_filter hq)
      · rw [if_neg hs] at hq
        exact hp q hq
  · intro q hq
    obtain ⟨q0, hq0, rfl⟩ := List.mem_map.mp hq
    refine (spawnFold_inv O ctx.now _ _ ⟨?_, ?_⟩).2 q0 hq0
    · intro m hm
      dsimp only at hm
      obtain ⟨m0, hm0, rfl⟩ := List.mem_map.mp hm
      exact growNode_count_nonneg O m0 (hn m0 hm0)
    · intro q hq
      dsimp only at hq
      by_cases hs : TopoShiftDue ctx
      · rw [if_pos hs] at hq
        exact hp q (List.mem_of_mem_filter hq)
      · rw [if_neg hs] at hq
        exact hp q hq

/-- C1 amended witness: a quiet tick on a healthy world keeps every node
count nonnegative. -/
theorem advance_count_nonneg_witness :
    (∀ n ∈ wUnit.nodes, 0 ≤ n.count) ∧
    (∀ n ∈ (advanceGameState oracleZero wUnit ctxQuiet).world.nodes, 0 ≤ n.count) :=
  ⟨by decide, advance_count_nonneg oracleZero wUnit ctxQuiet (by decide) (by decide)⟩

/-- handleAttack never touches the payload list. -/
theorem handleAttack_payloads (gs : GState) (pc : PlayerColor) (step : ℕ)
    (w : GameWorld) (fromId toId : String) (cont : Bool) :
    (handleAttack gs pc step w fromId toId cont).payloads = w.payloads := by
  unfold handleAttack
  split
  · rfl
  split
  · rfl
  cases hx : w.nodes.find? (fun n => n.id = fromId) with
  | none => cases hy : w.nodes.find? (fun n => n.id = toId) <;> rfl
  | some s =>
    cases hy : w.nodes.find? (fun n => n.id = toId) with
    | none => rfl
    | some t =>
      dsimp only
      split
      · rfl
      split
      · split
        · rfl
        split <;> rfl
      · split
        · rfl
        split <;> rfl

/-- A payload coming out of one spawning step either was already there or
is the freshly spawned unit of the processed transfer. -/
theorem spawnStep_payload_mem (O : Oracle) (now : ℚ) (s : SpawnState)
    (t : ActiveTransfer) (q : TravelPayload)
    (hq : q ∈ (spawnStep O now s t).payloads) :
    q ∈ s.payloads ∨
      (q.sourceId = t.sourceId ∧ q.targetId = t.targetId ∧ q.count = 1) := by
  unfold spawnStep at hq
  rcases hfx : s.nodes.find? (fun n => n.id = t.sourceId) with _ | sourceNode <;>
    rw [hfx] at hq
  · exact Or.inl hq
  · dsimp only at hq
    split at hq
    · exact Or.inl hq
    · split at hq
      case isTrue _ =>
        rcases List.mem_append.mp hq with hq' | hq'
        · exact Or.inl hq'
        · rw [List.mem_singleton.mp hq']
          exact Or.inr ⟨rfl, rfl, rfl⟩
      case isFalse _ => exact Or.inl hq

/-- A payload coming out of the whole spawning fold either was already
there or is a fresh unit of some processed transfer. -/
theorem spawnFold_payload_mem (O : Oracle) (now : ℚ) (ts : List ActiveTransfer)
    (s : SpawnState) (q : TravelPayload)
    (hq : q ∈ (ts.foldl (spawnStep O now) s).payloads) :
    q ∈ s.payloads ∨
      ∃ t ∈ ts, q.sourceId = t.sourceId ∧ q.targetId = t.targetId ∧ q.count = 1 := by
  induction ts generalizing s with
  | nil => exact Or.inl hq
  | cons t ts ih =>
    rcases ih _ hq with hmem | ⟨t', ht', hprop⟩
    · rcases spawnStep_payload_mem O now s t q hmem with h | h
      · exact Or.inl h
      · exact Or.inr ⟨t, List.mem_cons_self _ _, h⟩
    · exact Or.inr ⟨t', List.mem_cons_of_mem _ ht', hprop⟩

/-- One arrival step only ever extends the survivor list with the
processed payload. -/
theorem arrivalStep_survivor_mem (nodes : List Node) (removed : List ℕ)
    (acc : ArrivalAcc) (p q : TravelPayload)
    (hq : q ∈ (arrivalStep nodes removed acc p).survivors) :
    q ∈ acc.survivors ∨ q = p := by
  unfold arrivalStep at hq
  split at hq
  · exact Or.inl hq
  · split at hq
    · rcases hfx : nodes.find? (fun n => n.id = p.targetId) with _ | target <;>
        rw [hfx] at hq
      · exact Or.inl hq
      · exact Or.inl hq
    · rcases List.mem_append.mp hq with hq' | hq'
      · exact Or.inl hq'
      · exact Or.inr (List.mem_singleton.mp hq')

/-- Survivors of the arrival fold come from the processed payloads. -/
theorem arrivalFold_survivor_mem (nodes : List Node) (removed : List ℕ)
    (ps : List TravelPayload) (acc : ArrivalAcc) (q : TravelPayload)
    (hq : q ∈ (ps.foldl (arrivalStep nodes removed) acc).survivors) :
    q ∈ acc.survivors ∨ q ∈ ps := by
  induction ps generalizing acc with
  | nil => exact Or.inl hq
  | cons p ps ih =>
    rcases ih _ hq with hmem | hmem
    · rcases arrivalStep_survivor_mem nodes removed acc p q hmem with h | h
      · exact Or.inl h
      · exact Or.inr (h ▸ List.mem_cons_self _ _)
    · exact Or.inr (List.mem_cons_of_mem _ hmem)

/-- Survivors of the arrival phase come from the moved payloads. -/
theorem arrivalPhase_survivor_mem (nodes : List Node) (removed : List ℕ)
    (moved : List TravelPayload) (q : TravelPayload)
    (hq : q ∈ (arrivalPhase nodes removed moved).survivors) : q ∈ moved := by
  unfold arrivalPhase at hq
  dsimp only at hq
  rcases arrivalFold_survivor_mem nodes removed moved ⟨[], [], [], false⟩ q hq with h | h
  · cases h
  · exact h

/-- C10: every payload the engine creates carries count exactly 1 and no
operation changes it, so in every reachable world all in-flight payloads
have count 1 (in particular never 12); a reinforcement arrival then adds
exactly 1, and an attacking arrival deals exactly 1, or one half against a
FORTRESS. -/
theorem payload_count_always_one (w : GameWorld) (hw : ReachableWorld w) :
    (∀ p ∈ w.payloads, p.count = 1) ∧
    (∀ p ∈ w.payloads, p.count ≠ 12) ∧
    (∀ st : ArrState, incomingDamageOf st 1 = if st.type = .FORTRESS then 1/2 else 1) ∧
    (∀ st : ArrState, ∀ p : TravelPayload, p.count = 1 → st.owner = p.owner →
      (arrivalSpecStep st p).count = st.count + 1) := by
  have main : ∀ p ∈ w.payloads, p.count = 1 := by
    induction hw with
    | init nodes edges =>
      intro p hp
      cases hp
    | tick w O ctx hw ih =>
      intro p hp
      simp only [advanceGameState] at hp
      have hmv := arrivalPhase_survivor_mem _ _ _ p hp
      obtain ⟨q0, hq0, rfl⟩ := List.mem_map.mp hmv
      show q0.count = 1
      rcases spawnFold_payload_mem O ctx.now _ _ q0 hq0 with hin | ⟨t, _, _, _, hcnt⟩
      · dsimp only at hin
        by_cases hs : TopoShiftDue ctx
        · rw [if_pos hs] at hin
          exact ih q0 (List.mem_of_mem_filter hin)
        · rw [if_neg hs] at hin
          exact ih q0 hin
      · exact hcnt
    | attack w gs pc step fromId toId cont hw ih =>
      intro p hp
      rw [handleAttack_payloads] at hp
      exact ih p hp
    | resume w tm d hw ih =>
      intro p hp
      exact ih p hp
  refine ⟨main, fun p hp => by rw [main p hp]; norm_num, ?_, ?_⟩
  · intro st
    unfold incomingDamageOf
    split <;> norm_num
  · intro st p hc ho
    unfold arrivalSpecStep
    rw [if_pos ho]
    dsimp only
    rw [hc]

/-- C10 witness: the invariant applied to a freshly generated world. -/
theorem payload_count_always_one_witness :
    (∀ p ∈ (⟨[nA10], [], [], [], []⟩ : GameWorld).payloads, p.count = 1) ∧
    (∀ p ∈ (⟨[nA10], [], [], [], []⟩ : GameWorld).payloads, p.count ≠ 12) ∧
    (∀ st : ArrState, incomingDamageOf st 1 = if st.type = .FORTRESS then 1/2 else 1) ∧
    (∀ st : ArrState, ∀ p : TravelPayload, p.count = 1 → st.owner = p.owner →
      (arrivalSpecStep st p).count = st.count + 1) :=
  payload_count_always_one ⟨[nA10], [], [], [], []⟩ (ReachableWorld.init [nA10] [])

/-- Applying one AI move either changes nothing or appends exactly one
fresh transfer built by aiTransferFor. -/
theorem aiApplyMove_cases (nodes : List Node) (acc : List ActiveTransfer)
    (mv : String × String) :
    aiApplyMove nodes acc mv = acc ∨
    ∃ s tg, nodes.find? (fun n => n.id = mv.1) = some s ∧
      nodes.find? (fun n => n.id = mv.2) = some tg ∧ 2 < s.count ∧
      aiApplyMove nodes acc mv = acc ++ [aiTransferFor s tg] := by
  unfold aiApplyMove
  cases hx : nodes.find? (fun n => n.id = mv.1) with
  | none => cases hy : nodes.find? (fun n => n.id = mv.2) <;> exact Or.inl rfl
  | some s =>
    cases hy : nodes.find? (fun n => n.id = mv.2) with
    | none => exact Or.inl rfl
    | some tg =>
      dsimp only
      by_cases hc : s.count > 2
      · rw [if_pos hc]
        exact Or.inr ⟨s, tg, rfl, rfl, hc, rfl⟩
      · rw [if_neg hc]
        exact Or.inl rfl

/-- C8 amended: every emitted AI move is applied with the human amount
rule — it requires source.count > 2 and sends floor(source.count / 2) with
counters starting at zero — but it always creates a new ActiveTransfer
appended after the existing ones and never merges into an existing
transfer for the same pair. -/
theorem ai_moves_always_new_transfer (nodes : List Node)
    (transfers : List ActiveTransfer) (mvs : List (String × String)) :
    ∃ created, mvs.foldl (aiApplyMove nodes) transfers = transfers ++ created ∧
      ∀ t ∈ created, t.sentCount = 0 ∧ t.lastSpawnTime = 0 ∧
        ∃ mv ∈ mvs, ∃ s, nodes.find? (fun n => n.id = mv.1) = some s ∧
          2 < s.count ∧ t.sourceId = s.id ∧ t.owner = s.owner ∧
          t.totalToSend = ((⌊s.count / 2⌋ : ℚ) : WithTop ℚ) := by
  induction mvs generalizing transfers with
  | nil =>
    refine ⟨[], by simp, ?_⟩
    intro t ht
    cases ht
  | cons mv mvs ih =>
    rw [List.foldl_cons]
    rcases aiApplyMove_cases nodes transfers mv with heq | ⟨s, tg, hs, htg, hcnt, heq⟩
    · rw [heq]
      obtain ⟨created, hfold, hprop⟩ := ih transfers
      refine ⟨created, hfold, ?_⟩
      intro t ht
      obtain ⟨h1, h2, mv', hmv', rest⟩ := hprop t ht
      exact ⟨h1, h2, mv', List.mem_cons_of_mem _ hmv', rest⟩
    · rw [heq]
      obtain ⟨created, hfold, hprop⟩ := ih (transfers ++ [aiTransferFor s tg])
      refine ⟨aiTransferFor s tg :: created, by rw [hfold, List.append_assoc]; rfl, ?_⟩
      intro t ht
      rcases List.mem_cons.mp ht with rfl | ht'
      · exact ⟨rfl, rfl, mv, List.mem_cons_self _ _, s, hs, hcnt, rfl, rfl, rfl⟩
      · obtain ⟨h1, h2, mv', hmv', rest⟩ := hprop t ht'
        exact ⟨h1, h2, mv', List.mem_cons_of_mem _ hmv', rest⟩

/-- C8 counterexample: a tick in which the AI fires on a pair that
already has an active transfer produces a second transfer for that pair
(no merge), whereas a human attack command on the same world merges. -/
theorem ai_never_merges_counterexample :
    ((wAI.transfers.filter fun t =>
        t.sourceId = "A" ∧ t.targetId = "B").length = 1) ∧
    (((advanceGameState oracleZero wAI ctxAI).world.transfers.filter fun t =>
        t.sourceId = "A" ∧ t.targetId = "B").length = 2) ∧
    ((handleAttack .PLAYING .RED 0 wAI "A" "B" false).transfers.length = 1) := by
  decide

/-- C8 amended witness: applying a concrete AI move list appends fresh
transfers after the existing one. -/
theorem ai_moves_always_new_transfer_witness :
    ∃ created,
      [("A", "B")].foldl (aiApplyMove wAI.nodes) wAI.transfers =
        wAI.transfers ++ created ∧
      ∀ t ∈ created, t.sentCount = 0 ∧ t.lastSpawnTime = 0 ∧
        ∃ mv ∈ [("A", "B")], ∃ s,
          wAI.nodes.find? (fun n => n.id = mv.1) = some s ∧
          2 < s.count ∧ t.sourceId = s.id ∧ t.owner = s.owner ∧
          t.totalToSend = ((⌊s.count / 2⌋ : ℚ) : WithTop ℚ) :=
  ai_moves_always_new_transfer wAI.nodes wAI.transfers [("A", "B")]

/-- C3 counterexample: with three payloads on one edge, the pair
(pColP, pColQ) satisfies every condition of the claim — same undirected
edge, different owners, opposite launch ends, within the threshold — yet
only pColP is removed: pColQ survives the tick because pColP had already
been annihilated against pColR earlier in the scan. -/
theorem collision_pair_counterexample :
    edgeKey pColP = edgeKey pColQ ∧
    pColP.owner ≠ pColQ.owner ∧
    pColP.sourceId ≠ pColQ.sourceId ∧
    collisionThreshold oracleZero (movePayload pColR) = 1/20 ∧
    |(movePayload pColP).progress - (1 - (movePayload pColQ).progress)| < 1/20 ∧
    pColQ.id ∈ (advanceGameState oracleZero wThree ctxQuiet).world.payloads.map
      TravelPayload.id ∧
    pColP.id ∉ (advanceGameState oracleZero wThree ctxQuiet).world.payloads.map
      TravelPayload.id := by
  decide

/-- C3 amended: when the two opposing payloads are the only payloads in
flight (so neither can be annihilated earlier in the scan), a tick with no
transfers and no topology shift removes both — no survivor remains and the
nodes see only growth, no combat damage; and two payloads with the same
owner are never removed by the collision scan regardless of proximity. -/
theorem collision_pair_annihilation (O : Oracle) (w : GameWorld)
    (ctx : PhysicsContext) (p1 p2 : TravelPayload)
    (hpl : w.payloads = [p1, p2])
    (htr : w.transfers = [])
    (hns : ¬ TopoShiftDue ctx)
    (hkey : edgeKey (movePayload p1) = edgeKey (movePayload p2)) :
    (p1.owner ≠ p2.owner → p1.sourceId ≠ p2.sourceId →
      |(movePayload p1).progress - (1 - (movePayload p2).progress)| <
          collisionThreshold O (movePayload p1) →
      (advanceGameState O w ctx).world.payloads = [] ∧
      (advanceGameState O w ctx).world.nodes = w.nodes.map (growNode O)) ∧
    (p1.owner = p2.owner →
      collisionRemovals O [movePayload p1, movePayload p2] = []) := by
  have hkeys : groupKeysOf [movePayload p1, movePayload p2] =
      [edgeKey (movePayload p1)] := by
    unfold groupKeysOf
    simp only [List.foldl_cons, List.foldl_nil]
    rw [if_neg (List.not_mem_nil _), if_pos (by rw [← hkey]; simp)]
    simp
  have hfilt : [movePayload p1, movePayload p2].filter
      (fun p => edgeKey p = edgeKey (movePayload p1)) =
      [movePayload p1, movePayload p2] := by
    rw [List.filter_cons_of_pos (by simp),
      List.filter_cons_of_pos (by simp [← hkey])]
    rfl
  constructor
  · intro ho hsrc hdist
    have hrem : collisionRemovals O [movePayload p1, movePayload p2] =
        [(movePayload p1).id, (movePayload p2).id] := by
      unfold collisionRemovals
      rw [hkeys]
      simp only [List.foldl_cons, List.foldl_nil]
      rw [hfilt]
      unfold processGroup
      rw [if_neg (by norm_num)]
      unfold collideOuter
      rw [if_neg (List.not_mem_nil _)]
      unfold collideInner
      rw [if_neg (List.not_mem_nil _), if_pos ⟨ho, hsrc, hdist⟩]
      unfold collideInner
      unfold collideOuter
      rw [if_pos (by simp)]
      unfold collideOuter
      rfl
    have hstep1 : arrivalStep (List.map (growNode O) w.nodes)
        [(movePayload p1).id, (movePayload p2).id]
        ⟨[], [], [], false⟩ (movePayload p1) = ⟨[], [], [], false⟩ :=
      if_pos (by simp)
    have hstep2 : arrivalStep (List.map (growNode O) w.nodes)
        [(movePayload p1).id, (movePayload p2).id]
        ⟨[], [], [], false⟩ (movePayload p2) = ⟨[], [], [], false⟩ :=
      if_pos (by simp)
    constructor
    · show (advanceGameState O w ctx).world.payloads = []
      simp only [advanceGameState, if_neg hns, htr, hpl]
      simp only [List.foldl_nil, List.map_cons, List.map_nil]
      unfold arrivalPhase
      rw [hrem]
      simp only [List.foldl_cons, List.foldl_nil, hstep1, hstep2]
    · show (advanceGameState O w ctx).world.nodes = w.nodes.map (growNode O)
      simp only [advanceGameState, if_neg hns, htr, hpl]
      simp only [List.foldl_nil, List.map_cons, List.map_nil]
      unfold arrivalPhase
      rw [hrem]
      simp only [List.foldl_cons, List.foldl_nil, hstep1, hstep2]
      unfold applyNodeUpdates
      simp [getAssoc]
  · intro ho
    unfold collisionRemovals
    rw [hkeys]
    simp only [List.foldl_cons, List.foldl_nil]
    rw [hfilt]
    unfold processGroup
    rw [if_neg (by norm_num)]
    unfold collideOuter
    rw [if_neg (List.not_mem_nil _)]
    unfold collideInner
    rw [if_neg (List.not_mem_nil _), if_neg (fun hcond => hcond.1 ho)]
    unfold collideInner
    unfold collideOuter
    rw [if_neg (List.not_mem_nil _)]
    unfold collideInner
    unfold collideOuter
    rfl

/-- C3 amended witness: a lone opposing pair at mid-path annihilates — the
tick ends with no payloads and growth-only nodes — and the same geometry
with equal owners produces no removal. -/
theorem collision_pair_annihilation_witness :
    (advanceGameState oracleZero wPair ctxQuiet).world.payloads = [] ∧
    (advanceGameState oracleZero wPair ctxQuiet).world.nodes =
      wPair.nodes.map (growNode oracleZero) ∧
    collisionRemovals oracleZero [movePayload pSameA, movePayload pSameB] = [] := by
  have h := collision_pair_annihilation oracleZero wPair ctxQuiet pColR pColP
    (by decide) (by decide) (by decide) (by decide)
  have h2 := collision_pair_annihilation oracleZero
    ⟨[nRed0], [], [pSameA, pSameB], [], []⟩ ctxQuiet pSameA pSameB
    (by decide) (by decide) (by decide) (by decide)
  obtain ⟨hmain, -⟩ := h
  obtain ⟨hp, hn⟩ := hmain (by decide) (by decide) (by decide)
  exact ⟨hp, hn, h2.2 (by decide)⟩


/-- Edges already present survive the extra-RANDOM-edge loop: it only ever
appends. -/
theorem addRandomCands_mem (nodes : List Node) (cs : List Cand) :
    ∀ (q : ℕ) (es : List Edge) (e : Edge), e ∈ es →
      e ∈ addRandomCands nodes q cs es := by
  induction cs with
  | nil => intro q es e he; cases q <;> exact he
  | cons c cs ih =>
    intro q es e he
    cases q with
    | zero => exact he
    | succ q =>
      unfold addRandomCands
      split
      · exact ih (q + 1) es e he
      · exact ih q _ e (List.mem_append_left _ he)

/-- regenerateTopology keeps every PERMANENT edge of the previous edge
set. -/
theorem regenerateTopology_permanent (O : Oracle) (nodes : List Node)
    (es : List Edge) (e : Edge) (he : e ∈ es) (hperm : e.type = .PERMANENT) :
    e ∈ regenerateTopology O nodes es := by
  unfold regenerateTopology
  exact addRandomCands_mem nodes _ _ _ e (List.mem_filter.mpr ⟨he, by simp [hperm]⟩)

/-- A transfer surviving one spawning step is either an input survivor or
keeps the processed transfer's endpoints. -/
theorem spawnStep_transfer_mem (O : Oracle) (now : ℚ) (s : SpawnState)
    (t : ActiveTransfer) (u : ActiveTransfer)
    (hu : u ∈ (spawnStep O now s t).surviving) :
    u ∈ s.surviving ∨ (u.sourceId = t.sourceId ∧ u.targetId = t.targetId) := by
  unfold spawnStep at hu
  rcases hfx : s.nodes.find? (fun n => n.id = t.sourceId) with _ | sourceNode <;>
    rw [hfx] at hu
  · exact Or.inl hu
  · dsimp only at hu
    split at hu
    · exact Or.inl hu
    · split at hu
      case isTrue _ =>
        dsimp only at hu
        split at hu
        · rcases List.mem_append.mp hu with h | h
          · exact Or.inl h
          · rw [List.mem_singleton.mp h]
            exact Or.inr ⟨rfl, rfl⟩
        · exact Or.inl hu
      case isFalse _ =>
        dsimp only at hu
        split at hu
        · rcases List.mem_append.mp hu with h | h
          · exact Or.inl h
          · rw [List.mem_singleton.mp h]
            exact Or.inr ⟨rfl, rfl⟩
        · exact Or.inl hu

/-- A transfer surviving the whole spawning fold is an initial survivor or
keeps the endpoints of some processed transfer. -/
theorem spawnFold_transfer_mem (O : Oracle) (now : ℚ) (ts : List ActiveTransfer)
    (s : SpawnState) (u : ActiveTransfer)
    (hu : u ∈ (ts.foldl (spawnStep O now) s).surviving) :
    u ∈ s.surviving ∨ ∃ t ∈ ts, u.sourceId = t.sourceId ∧ u.targetId = t.targetId := by
  induction ts generalizing s with
  | nil => exact Or.inl hu
  | cons t ts ih =>
    rcases ih _ hu with hmem | ⟨t', ht', hp⟩
    · rcases spawnStep_transfer_mem O now s t u hmem with h | h
      · exact Or.inl h
      · exact Or.inr ⟨t, List.mem_cons_self _ _, h⟩
    · exact Or.inr ⟨t', List.mem_cons_of_mem _ ht', hp⟩

/-- The best-neighbor fold only ever returns a node of the scanned list
(or one already stored in the accumulator). -/
theorem pickBest_fold_mem (O : Oracle) (i : ℕ) (source : Node)
    (S : List Node) :
    ∀ (l : List (ℕ × Node)) (acc : Option (Node × ℚ)) (bt : Node) (bs : ℚ),
      (∀ b s, acc = some (b, s) → b ∈ S) → (∀ jt ∈ l, jt.2 ∈ S) →
      l.foldl
        (fun best jt =>
          let score := scoreTarget O i jt.1 source jt.2
          match best with
          | none => some (jt.2, score)
          | some (b, s) => if score > s then some (jt.2, score) else some (b, s))
        acc = some (bt, bs) → bt ∈ S := by
  intro l
  induction l with
  | nil =>
    intro acc bt bs hacc _ h
    exact hacc bt bs h
  | cons jt l ih =>
    intro acc bt bs hacc hl h
    rw [List.foldl_cons] at h
    refine ih _ bt bs ?_ (fun x hx => hl x (List.mem_cons_of_mem _ hx)) h
    intro b s hb
    dsimp only at hb
    cases acc with
    | none =>
      cases hb
      exact hl jt (List.mem_cons_self _ _)
    | some p =>
      obtain ⟨b0, s0⟩ := p
      dsimp only at hb
      split at hb
      · cases hb
        exact hl jt (List.mem_cons_self _ _)
      · cases hb
        exact hacc _ _ rfl

/-- pickBest returns a member of the neighbor list. -/
theorem pickBest_mem (O : Oracle) (i : ℕ) (source : Node)
    (neighbors : List Node) (bt : Node) (bs : ℚ)
    (h : pickBest O i source neighbors = some (bt, bs)) : bt ∈ neighbors := by
  unfold pickBest at h
  refine pickBest_fold_mem O i source neighbors neighbors.enum none bt bs ?_ ?_ h
  · intro b s hb
    cases hb
  · intro jt hjt
    have hm : jt.2 ∈ neighbors.enum.map Prod.snd := List.mem_map_of_mem _ hjt
    rwa [List.enum_map_snd] at hm

/-- Any move aiMoveFor emits names an edge-joined pair of the given edge
list. -/
theorem aiMoveFor_joins (O : Oracle) (cfg : DifficultyConfig) (nodes : List Node)
    (edges : List Edge) (i : ℕ) (source : Node) (mv : String × String)
    (h : aiMoveFor O cfg nodes edges i source = some mv) :
    edgeJoins edges mv.1 mv.2 = true := by
  unfold aiMoveFor at h
  split at h
  · cases h
  · split at h
    · cases h
    · dsimp only at h
      rcases hpb : pickBest O i source
          (nodes.filter fun n => edgeJoins edges source.id n.id) with _ | p <;>
        rw [hpb] at h
      · cases h
      · obtain ⟨bt, bs⟩ := p
        dsimp only at h
        split at h <;> split at h
        case isTrue.isTrue =>
          obtain rfl := Option.some.inj h
          have hmem := pickBest_mem O i source _ bt bs hpb
          exact (List.mem_filter.mp hmem).2
        case isTrue.isFalse => exact Option.noConfusion h
        case isFalse.isTrue =>
          obtain rfl := Option.some.inj h
          have hmem := pickBest_mem O i source _ bt bs hpb
          exact (List.mem_filter.mp hmem).2
        case isFalse.isFalse => exact Option.noConfusion h

/-- Every move calculateAIMoves emits names an edge-joined pair of the
world's edges. -/
theorem calculateAIMoves_joins (O : Oracle) (world : GameWorld)
    (pc : PlayerColor) (d : DifficultyLevel) (auto : Bool) (mv : String × String)
    (hmv : mv ∈ calculateAIMoves O world pc d auto) :
    edgeJoins world.edges mv.1 mv.2 = true := by
  unfold calculateAIMoves at hmv
  dsimp only at hmv
  obtain ⟨iv, hiv, hsome⟩ := List.mem_filterMap.mp hmv
  exact aiMoveFor_joins O _ world.nodes world.edges iv.1 iv.2 mv hsome

/-- Transfers coming out of the AI-application fold are input transfers or
fresh transfers built from a found source and target of an emitted move. -/
theorem aiFold_transfer_mem (nodes : List Node) (mvs : List (String × String))
    (acc : List ActiveTransfer) (u : ActiveTransfer)
    (hu : u ∈ mvs.foldl (aiApplyMove nodes) acc) :
    u ∈ acc ∨ ∃ mv ∈ mvs, ∃ s tg,
      nodes.find? (fun n => n.id = mv.1) = some s ∧
      nodes.find? (fun n => n.id = mv.2) = some tg ∧ u = aiTransferFor s tg := by
  induction mvs generalizing acc with
  | nil => exact Or.inl hu
  | cons mv mvs ih =>
    rw [List.foldl_cons] at hu
    rcases ih _ hu with hmem | ⟨mv', hmv', rest⟩
    · rcases aiApplyMove_cases nodes acc mv with heq | ⟨s, tg, hs, htg, _, heq⟩
      · rw [heq] at hmem
        exact Or.inl hmem
      · rw [heq] at hmem
        rcases List.mem_append.mp hmem with h | h
        · exact Or.inl h
        · exact Or.inr ⟨mv, List.mem_cons_self _ _, s, tg, hs, htg,
            List.mem_singleton.mp h⟩
    · exact Or.inr ⟨mv', List.mem_cons_of_mem _ hmv', rest⟩

/-- C5: in a tick whose topology shift fires, the returned edge set is the
regenerated one, every PERMANENT edge of the previous world is retained in
it, and the returned world never contains a payload or transfer whose
endpoint pair is not joined by some returned edge — in particular, for a
pair severed by the regeneration no payload or transfer on that pair
survives the tick. -/
theorem topology_severance (O : Oracle) (w : GameWorld) (ctx : PhysicsContext)
    (hdue : TopoShiftDue ctx) :
    (advanceGameState O w ctx).world.edges = regenerateTopology O w.nodes w.edges ∧
    (∀ e ∈ w.edges, e.type = .PERMANENT → e ∈ (advanceGameState O w ctx).world.edges) ∧
    (∀ p ∈ (advanceGameState O w ctx).world.payloads,
      edgeJoins (advanceGameState O w ctx).world.edges p.sourceId p.targetId = true) ∧
    (∀ u ∈ (advanceGameState O w ctx).world.transfers,
      edgeJoins (advanceGameState O w ctx).world.edges u.sourceId u.targetId = true) ∧
    (∀ a b : String, edgeJoins (advanceGameState O w ctx).world.edges a b = false →
      (∀ p ∈ (advanceGameState O w ctx).world.payloads,
        ¬(p.sourceId = a ∧ p.targetId = b)) ∧
      (∀ u ∈ (advanceGameState O w ctx).world.transfers,
        ¬(u.sourceId = a ∧ u.targetId = b))) := by
  have hE : (advanceGameState O w ctx).world.edges =
      regenerateTopology O w.nodes w.edges := by
    simp only [advanceGameState, if_pos hdue]
  have hP : ∀ p ∈ (advanceGameState O w ctx).world.payloads,
      edgeJoins (advanceGameState O w ctx).world.edges p.sourceId p.targetId = true := by
    intro p hp
    rw [hE]
    simp only [advanceGameState, if_pos hdue] at hp
    have hmv := arrivalPhase_survivor_mem _ _ _ p hp
    obtain ⟨q, hq, rfl⟩ := List.mem_map.mp hmv
    show edgeJoins (regenerateTopology O w.nodes w.edges) q.sourceId q.targetId = true
    rcases spawnFold_payload_mem O ctx.now _ _ q hq with hin | ⟨t, ht, h1, h2, -⟩
    · dsimp only at hin
      exact (List.mem_filter.mp hin).2
    · rw [h1, h2]
      exact (List.mem_filter.mp ht).2
  have hT : ∀ u ∈ (advanceGameState O w ctx).world.transfers,
      edgeJoins (advanceGameState O w ctx).world.edges u.sourceId u.targetId = true := by
    intro u hu
    rw [hE]
    simp only [advanceGameState, if_pos hdue] at hu
    rcases aiFold_transfer_mem _ _ _ u hu with hmem | ⟨mv, hmv, s', tg, hs, htg, rfl⟩
    · rcases spawnFold_transfer_mem O ctx.now _ _ u hmem with hnil | ⟨t, ht, h1, h2⟩
      · dsimp only at hnil
        cases hnil
      · rw [h1, h2]
        exact (List.mem_filter.mp ht).2
    · by_cases hai : AIDue ctx
      · rw [if_pos hai] at hmv
        have hj := calculateAIMoves_joins O _ ctx.playerColor ctx.difficulty
          ctx.isPlayerAutoPilot mv hmv
        have hs0 := List.find?_some hs
        have htg0 := List.find?_some htg
        have hs' : s'.id = mv.1 := of_decide_eq_true hs0
        have htg' : tg.id = mv.2 := of_decide_eq_true htg0
        show edgeJoins (regenerateTopology O w.nodes w.edges) s'.id tg.id = true
        rw [hs', htg']
        exact hj
      · rw [if_neg hai] at hmv
        cases hmv
  refine ⟨hE, ?_, hP, hT, ?_⟩
  · intro e he hperm
    rw [hE]
    exact regenerateTopology_permanent O w.nodes w.edges e he hperm
  · intro a b hfalse
    constructor
    · intro p hp hpair
      have := hP p hp
      rw [hpair.1, hpair.2, hfalse] at this
      exact absurd this Bool.false_ne_true
    · intro u hu hpair
      have := hT u hu
      rw [hpair.1, hpair.2, hfalse] at this
      exact absurd this Bool.false_ne_true

/-- C5 witness: the severance guarantee applied to a concrete shifting
tick over a three-node world whose stale RANDOM edge carries a payload. -/
theorem topology_severance_witness :
    (advanceGameState oracleZero wSever ctxShift).world.edges =
      regenerateTopology oracleZero wSever.nodes wSever.edges ∧
    (∀ e ∈ wSever.edges, e.type = .PERMANENT →
      e ∈ (advanceGameState oracleZero wSever ctxShift).world.edges) ∧
    (∀ p ∈ (advanceGameState oracleZero wSever ctxShift).world.payloads,
      edgeJoins (advanceGameState oracleZero wSever ctxShift).world.edges
        p.sourceId p.targetId = true) ∧
    (∀ u ∈ (advanceGameState oracleZero wSever ctxShift).world.transfers,
      edgeJoins (advanceGameState oracleZero wSever ctxShift).world.edges
        u.sourceId u.targetId = true) ∧
    (∀ a b : String,
      edgeJoins (advanceGameState oracleZero wSever ctxShift).world.edges a b = false →
      (∀ p ∈ (advanceGameState oracleZero wSever ctxShift).world.payloads,
        ¬(p.sourceId = a ∧ p.targetId = b)) ∧
      (∀ u ∈ (advanceGameState oracleZero wSever ctxShift).world.transfers,
        ¬(u.sourceId = a ∧ u.targetId = b))) :=
  topology_severance oracleZero wSever ctxShift (by decide)


/-- edgeJoins is orientation-symmetric. -/
theorem edgeJoins_symm (es : List Edge) (a b : String)
    (h : edgeJoins es a b = true) : edgeJoins es b a = true := by
  unfold edgeJoins at h ⊢
  rw [List.any_eq_true] at h ⊢
  obtain ⟨e, he, hc⟩ := h
  exact ⟨e, he, decide_eq_true (Or.symm (of_decide_eq_true hc))⟩

/-- Connectivity is symmetric. -/
theorem EdgeConnected_symm (es : List Edge) (a b : String)
    (h : EdgeConnected es a b) : EdgeConnected es b a :=
  Relation.ReflTransGen.symmetric
    (fun x y hxy => edgeJoins_symm es x y hxy) h

/-- edgeJoins is monotone under edge-list inclusion. -/
theorem edgeJoins_mono (es es' : List Edge) (hsub : ∀ e ∈ es, e ∈ es')
    (a b : String) (h : edgeJoins es a b = true) : edgeJoins es' a b = true := by
  unfold edgeJoins at h ⊢
  rw [List.any_eq_true] at h ⊢
  obtain ⟨e, he, hc⟩ := h
  exact ⟨e, hsub e he, hc⟩

/-- Connectivity is monotone under edge-list inclusion. -/
theorem EdgeConnected_mono (es es' : List Edge) (hsub : ∀ e ∈ es, e ∈ es')
    (a b : String) (h : EdgeConnected es a b) : EdgeConnected es' a b :=
  Relation.ReflTransGen.mono
    (fun x y hxy => edgeJoins_mono es es' hsub x y hxy) h

/-- Class lookup after a relabelling union, for in-range indices. -/
theorem dsFind_dsUnion (comp : List ℕ) (a b i : ℕ) (hi : i < comp.length) :
    dsFind (dsUnion comp a b) i =
      if dsFind comp i = dsFind comp a then dsFind comp b else dsFind comp i := by
  unfold dsUnion dsFind
  rw [List.getD_eq_getElem _ _ (by simpa using hi), List.getElem_map,
    List.getD_eq_getElem _ _ hi]

/-- A union never changes the partition's size. -/
theorem dsUnion_length (comp : List ℕ) (a b : ℕ) :
    (dsUnion comp a b).length = comp.length := List.length_map _ _

/-- A union preserves every existing connection. -/
theorem dsConnected_dsUnion (comp : List ℕ) (a b i j : ℕ)
    (hi : i < comp.length) (hj : j < comp.length)
    (h : dsConnected comp i j = true) :
    dsConnected (dsUnion comp a b) i j = true := by
  have h' : dsFind comp i = dsFind comp j := of_decide_eq_true h
  refine decide_eq_true ?_
  rw [dsFind_dsUnion _ _ _ _ hi, dsFind_dsUnion _ _ _ _ hj, h']

/-- In the initial partition every index is its own class. -/
theorem dsFind_dsInit (n i : ℕ) (hi : i < n) : dsFind (dsInit n) i = i := by
  unfold dsFind dsInit
  rw [List.getD_eq_getElem _ _ (by simpa using hi), List.getElem_range]


/-- The Kruskal loop never changes the partition's size. -/
theorem kruskalFold_comp_length (nodes : List Node) (cs : List Cand) :
    ∀ (es : List Edge) (comp : List ℕ),
      (kruskalFold nodes cs (es, comp)).2.length = comp.length := by
  induction cs with
  | nil => intro es comp; rfl
  | cons c cs ih =>
    intro es comp
    unfold kruskalFold
    split
    · exact ih es comp
    · rw [ih _ _, dsUnion_length]

/-- The Kruskal loop preserves every existing connection of the
partition. -/
theorem kruskalFold_connected_mono (nodes : List Node) (cs : List Cand) :
    ∀ (es : List Edge) (comp : List ℕ) (i j : ℕ),
      i < comp.length → j < comp.length → dsConnected comp i j = true →
      dsConnected (kruskalFold nodes cs (es, comp)).2 i j = true := by
  induction cs with
  | nil =>
    intro es comp i j _ _ h
    exact h
  | cons c cs ih =>
    intro es comp i j hi hj h
    unfold kruskalFold
    split
    · exact ih es comp i j hi hj h
    · exact ih _ _ i j (by rwa [dsUnion_length]) (by rwa [dsUnion_length])
        (dsConnected_dsUnion comp c.s c.t i j hi hj h)

/-- After the Kruskal loop, the endpoints of every processed candidate are
connected in the final partition. -/
theorem kruskalFold_connects (nodes : List Node) (cs : List Cand) :
    ∀ (es : List Edge) (comp : List ℕ) (c : Cand), c ∈ cs →
      c.s < comp.length → c.t < comp.length →
      dsConnected (kruskalFold nodes cs (es, comp)).2 c.s c.t = true := by
  induction cs with
  | nil =>
    intro es comp c hc
    cases hc
  | cons c0 cs ih =>
    intro es comp c hc hs ht
    unfold kruskalFold
    rcases List.mem_cons.mp hc with rfl | hc'
    · split
      case isTrue hconn =>
        exact kruskalFold_connected_mono nodes cs es comp c.s c.t hs ht hconn
      case isFalse hconn =>
        refine kruskalFold_connected_mono nodes cs _ _ c.s c.t
          (by rwa [dsUnion_length]) (by rwa [dsUnion_length]) ?_
        refine decide_eq_true ?_
        rw [dsFind_dsUnion _ _ _ _ hs, dsFind_dsUnion _ _ _ _ ht, if_pos rfl,
          ite_self]
    · split
      · exact ih es comp c hc' hs ht
      · exact ih _ _ c hc' (by rwa [dsUnion_length]) (by rwa [dsUnion_length])

/-- Every edge the Kruskal loop appends is PERMANENT. -/
theorem kruskalFold_edges_mem (nodes : List Node) (cs : List Cand) :
    ∀ (es : List Edge) (comp : List ℕ) (e : Edge),
      e ∈ (kruskalFold nodes cs (es, comp)).1 → e ∈ es ∨ e.type = .PERMANENT := by
  induction cs with
  | nil =>
    intro es comp e he
    exact Or.inl he
  | cons c cs ih =>
    intro es comp e he
    unfold kruskalFold at he
    split at he
    · exact ih es comp e he
    · rcases ih _ _ e he with h | h
      · rcases List.mem_append.mp h with h' | h'
        · exact Or.inl h'
        · rw [List.mem_singleton.mp h']
          exact Or.inr rfl
      · exact Or.inr h

/-- The partition-to-graph bridge: whenever the loop's partition connects
two in-range indices, the emitted edge list connects the corresponding
node ids. -/
theorem kruskalFold_bridge (nodes : List Node) (cs : List Cand) :
    ∀ (es : List Edge) (comp : List ℕ),
      (∀ c ∈ cs, c.s < comp.length ∧ c.t < comp.length) →
      (∀ i j, i < comp.length → j < comp.length → dsConnected comp i j = true →
        EdgeConnected es (idAt nodes i) (idAt nodes j)) →
      ∀ i j, i < comp.length → j < comp.length →
        dsConnected (kruskalFold nodes cs (es, comp)).2 i j = true →
        EdgeConnected (kruskalFold nodes cs (es, comp)).1
          (idAt nodes i) (idAt nodes j) := by
  induction cs with
  | nil =>
    intro es comp _ hbr i j hi hj h
    exact hbr i j hi hj h
  | cons c cs ih =>
    intro es comp hbnd hbr i j hi hj h
    have hcs : c.s < comp.length := (hbnd c (List.mem_cons_self _ _)).1
    have hct : c.t < comp.length := (hbnd c (List.mem_cons_self _ _)).2
    unfold kruskalFold at h ⊢
    by_cases hconn : dsConnected comp c.s c.t = true
    · rw [if_pos hconn] at h ⊢
      exact ih es comp (fun c' hc' => hbnd c' (List.mem_cons_of_mem _ hc'))
        hbr i j hi hj h
    · rw [if_neg hconn] at h ⊢
      refine ih _ _ (fun c' hc' => ?_) ?_ i j
        (by rwa [dsUnion_length]) (by rwa [dsUnion_length]) h
      · rw [dsUnion_length]
        exact hbnd c' (List.mem_cons_of_mem _ hc')
      · intro i' j' hi' hj' h'
        rw [dsUnion_length] at hi' hj'
        have h'' : dsFind (dsUnion comp c.s c.t) i' =
            dsFind (dsUnion comp c.s c.t) j' := of_decide_eq_true h'
        rw [dsFind_dsUnion _ _ _ _ hi', dsFind_dsUnion _ _ _ _ hj'] at h''
        have hmono : ∀ a b, EdgeConnected es a b →
            EdgeConnected (es ++ [⟨idAt nodes c.s, idAt nodes c.t, .PERMANENT⟩]) a b :=
          fun a b hab =>
            EdgeConnected_mono es _ (fun e he => List.mem_append_left _ he) a b hab
        have hadj : EdgeAdj (es ++ [⟨idAt nodes c.s, idAt nodes c.t, .PERMANENT⟩])
            (idAt nodes c.s) (idAt nodes c.t) := by
          unfold EdgeAdj edgeJoins
          rw [List.any_eq_true]
          exact ⟨_, List.mem_append_right _ (List.mem_singleton_self _),
            decide_eq_true (Or.inl ⟨rfl, rfl⟩)⟩
        by_cases h1 : dsFind comp i' = dsFind comp c.s <;>
          by_cases h2 : dsFind comp j' = dsFind comp c.s
        · exact hmono _ _ (hbr i' j' hi' hj' (decide_eq_true (h1.trans h2.symm)))
        · rw [if_pos h1, if_neg h2] at h''
          exact Relation.ReflTransGen.trans
            (Relation.ReflTransGen.trans
              (hmono _ _ (hbr i' c.s hi' hcs (decide_eq_true h1)))
              (Relation.ReflTransGen.single hadj))
            (hmono _ _ (hbr c.t j' hct hj' (decide_eq_true h'')))
        · rw [if_neg h1, if_pos h2] at h''
          exact Relation.ReflTransGen.trans
            (Relation.ReflTransGen.trans
              (hmono _ _ (hbr i' c.t hi' hct (decide_eq_true h'')))
              (Relation.ReflTransGen.single (edgeJoins_symm _ _ _ hadj)))
            (hmono _ _ (hbr c.s j' hcs hj' (decide_eq_true h2.symm)))
        · rw [if_neg h1, if_neg h2] at h''
          exact hmono _ _ (hbr i' j' hi' hj' (decide_eq_true h''))


/-- Index pairs produced by the double loop are in range. -/
theorem allPairs_bounds (n i j : ℕ) (h : (i, j) ∈ allPairs n) :
    i < n ∧ j < n := by
  unfold allPairs at h
  rw [List.mem_flatMap] at h
  obtain ⟨a, ha, hm⟩ := h
  rw [List.mem_map] at hm
  obtain ⟨b, hb, heq⟩ := hm
  cases heq
  exact ⟨List.mem_range.mp ha, List.mem_range.mp (List.mem_of_mem_drop hb)⟩

/-- Every in-range ordered pair is produced by the double loop. -/
theorem mem_allPairs (n i j : ℕ) (hij : i < j) (hj : j < n) :
    (i, j) ∈ allPairs n := by
  unfold allPairs
  rw [List.mem_flatMap]
  refine ⟨i, List.mem_range.mpr (lt_trans hij hj), ?_⟩
  rw [List.mem_map]
  refine ⟨j, ?_, rfl⟩
  rw [List.mem_iff_getElem?]
  refine ⟨j - (i + 1), ?_⟩
  rw [List.getElem?_drop]
  have harith : i + 1 + (j - (i + 1)) = j := by omega
  rw [harith, List.getElem?_range hj]

/-- Insertion into the distance-sorted list preserves the member set. -/
theorem mem_insertByDist (c x : Cand) (l : List Cand) :
    x ∈ insertByDist c l ↔ x ∈ c :: l := by
  induction l with
  | nil => exact Iff.rfl
  | cons y l ih =>
    unfold insertByDist
    split
    · exact Iff.rfl
    · simp only [List.mem_cons] at ih ⊢
      rw [ih]
      tauto

/-- Sorting by distance preserves the member set. -/
theorem mem_sortByDist (x : Cand) (l : List Cand) :
    x ∈ sortByDist l ↔ x ∈ l := by
  induction l with
  | nil => exact Iff.rfl
  | cons c l ih =>
    unfold sortByDist
    rw [mem_insertByDist]
    simp only [List.mem_cons, ih]

/-- Candidates carry in-range indices. -/
theorem potentialCands_bounds (O : Oracle) (nodes : List Node) (c : Cand)
    (hc : c ∈ potentialCands O nodes) :
    c.s < nodes.length ∧ c.t < nodes.length := by
  unfold potentialCands at hc
  rw [List.mem_map] at hc
  obtain ⟨ij, hij, rfl⟩ := hc
  obtain ⟨i, j⟩ := ij
  exact allPairs_bounds nodes.length i j hij

/-- Every in-range ordered pair appears as a candidate. -/
theorem mem_potentialCands (O : Oracle) (nodes : List Node) (i j : ℕ)
    (hij : i < j) (hj : j < nodes.length) :
    (⟨i, j, nodeDist O (nodes.getD i default) (nodes.getD j default)⟩ : Cand) ∈
      potentialCands O nodes := by
  unfold potentialCands
  rw [List.mem_map]
  exact ⟨(i, j), mem_allPairs _ i j hij hj, rfl⟩

/-- The extra-RANDOM-edge loop changes nothing about the PERMANENT
sublist: every edge it appends is RANDOM. -/
theorem addRandomCands_filter_perm (nodes : List Node) (cs : List Cand) :
    ∀ (q : ℕ) (es : List Edge),
      (addRandomCands nodes q cs es).filter (fun e => e.type = .PERMANENT) =
        es.filter (fun e => e.type = .PERMANENT) := by
  induction cs with
  | nil =>
    intro q es
    cases q <;> rfl
  | cons c cs ih =>
    intro q es
    cases q with
    | zero => rfl
    | succ q =>
      unfold addRandomCands
      split
      · exact ih (q + 1) es
      · rw [ih q _, List.filter_append]
        simp

/-- The PERMANENT edges of a generated map alone connect every pair of
nodes: the Kruskal phase unions every not-yet-connected candidate pair
over the complete sorted pair list, emitting a PERMANENT edge each time,
and the extra phase only appends RANDOM edges. -/
theorem generateEdges_permSpans (O : Oracle) (nodes : List Node) :
    PermSpans nodes (generateEdgesForNodes O nodes) := by
  intro a ha b hb
  obtain ⟨i, hi, rfl⟩ := List.mem_iff_getElem.mp ha
  obtain ⟨j, hj, rfl⟩ := List.mem_iff_getElem.mp hb
  have hbnd : ∀ c ∈ sortByDist (potentialCands O nodes),
      c.s < (dsInit nodes.length).length ∧ c.t < (dsInit nodes.length).length := by
    intro c hc
    have := potentialCands_bounds O nodes c ((mem_sortByDist c _).mp hc)
    unfold dsInit
    rw [List.length_range]
    exact this
  have hbase : ∀ i' j', i' < (dsInit nodes.length).length →
      j' < (dsInit nodes.length).length →
      dsConnected (dsInit nodes.length) i' j' = true →
      EdgeConnected [] (idAt nodes i') (idAt nodes j') := by
    intro i' j' hi' hj' hconn
    unfold dsInit at hi' hj'
    rw [List.length_range] at hi' hj'
    have h' : dsFind (dsInit nodes.length) i' = dsFind (dsInit nodes.length) j' :=
      of_decide_eq_true hconn
    rw [dsFind_dsInit _ _ hi', dsFind_dsInit _ _ hj'] at h'
    rw [h']
    exact Relation.ReflTransGen.refl
  have hconn : ∀ i' j', i' < nodes.length → j' < nodes.length →
      EdgeConnected (kruskalFold nodes (sortByDist (potentialCands O nodes))
        ([], dsInit nodes.length)).1 (idAt nodes i') (idAt nodes j') := by
    intro i' j' hi' hj'
    have hlen : (dsInit nodes.length).length = nodes.length := by
      unfold dsInit
      rw [List.length_range]
    rcases lt_trichotomy i' j' with hlt | rfl | hgt
    · refine kruskalFold_bridge nodes _ [] (dsInit nodes.length) hbnd hbase i' j'
        (by rwa [hlen]) (by rwa [hlen]) ?_
      refine kruskalFold_connects nodes _ [] (dsInit nodes.length)
        ⟨i', j', nodeDist O (nodes.getD i' default) (nodes.getD j' default)⟩
        ((mem_sortByDist _ _).mpr (mem_potentialCands O nodes i' j' hlt hj'))
        (by rwa [hlen]) (by rwa [hlen])
    · exact Relation.ReflTransGen.refl
    · refine EdgeConnected_symm _ _ _ ?_
      refine kruskalFold_bridge nodes _ [] (dsInit nodes.length) hbnd hbase j' i'
        (by rwa [hlen]) (by rwa [hlen]) ?_
      refine kruskalFold_connects nodes _ [] (dsInit nodes.length)
        ⟨j', i', nodeDist O (nodes.getD j' default) (nodes.getD i' default)⟩
        ((mem_sortByDist _ _).mpr (mem_potentialCands O nodes j' i' hgt hi'))
        (by rwa [hlen]) (by rwa [hlen])
  have hperm : ∀ e ∈ (kruskalFold nodes (sortByDist (potentialCands O nodes))
      ([], dsInit nodes.length)).1, e.type = .PERMANENT := by
    intro e he
    rcases kruskalFold_edges_mem nodes _ [] (dsInit nodes.length) e he with h | h
    · cases h
    · exact h
  have hfe : (generateEdgesForNodes O nodes).filter (fun e => e.type = .PERMANENT) =
      (kruskalFold nodes (sortByDist (potentialCands O nodes))
        ([], dsInit nodes.length)).1 := by
    show (addRandomCands nodes (nodes.length / 2)
        ((sortByDist (potentialCands O nodes)).filter fun c => c.d < 400)
        (kruskalFold nodes (sortByDist (potentialCands O nodes))
          ([], dsInit nodes.length)).1).filter (fun e => e.type = .PERMANENT) = _
    rw [addRandomCands_filter_perm]
    refine List.filter_eq_self.mpr ?_
    intro e he
    exact decide_eq_true (hperm e he)
  unfold PermSpans at *
  rw [hfe]
  have hidA : idAt nodes i = nodes[i].id := by
    unfold idAt
    rw [List.getD_eq_getElem _ _ hi]
  have hidB : idAt nodes j = nodes[j].id := by
    unfold idAt
    rw [List.getD_eq_getElem _ _ hj]
  rw [← hidA, ← hidB]
  exact hconn i j hi hj

/-- Regeneration preserves the PERMANENT skeleton verbatim, so the
spanning property carries over. -/
theorem regen_permSpans (O : Oracle) (nodes : List Node) (es : List Edge)
    (h : PermSpans nodes es) :
    PermSpans nodes (regenerateTopology O nodes es) := by
  intro a ha b hb
  have hfe : (regenerateTopology O nodes es).filter (fun e => e.type = .PERMANENT) =
      es.filter (fun e => e.type = .PERMANENT) := by
    show (addRandomCands nodes (nodes.length / 2)
        (O.candShuffle ((sortByDist (potentialCands O nodes)).filter
          fun c => c.d < 400))
        (es.filter fun e => e.type = .PERMANENT)).filter
          (fun e => e.type = .PERMANENT) = _
    rw [addRandomCands_filter_perm, List.filter_filter]
    refine List.filter_congr ?_
    intro e _
    exact Bool.and_self _
  rw [hfe]
  exact h a ha b hb


/-- C6: for every node set, the generated edge set is connected — indeed
its PERMANENT edges alone span every node pair — and any topology
regenerated from a spanning edge set is connected again, because the
minimum-spanning-tree edges are PERMANENT and all PERMANENT edges survive
regeneration. -/
theorem topology_connectivity (O : Oracle) (nodes : List Node)
    (edges : List Edge) :
    PermSpans nodes (generateEdgesForNodes O nodes) ∧
    (∀ a ∈ nodes, ∀ b ∈ nodes,
      EdgeConnected (generateEdgesForNodes O nodes) a.id b.id) ∧
    (PermSpans nodes edges →
      PermSpans nodes (regenerateTopology O nodes edges) ∧
      ∀ a ∈ nodes, ∀ b ∈ nodes,
        EdgeConnected (regenerateTopology O nodes edges) a.id b.id) := by
  have hfull : ∀ (es : List Edge), PermSpans nodes es →
      ∀ a ∈ nodes, ∀ b ∈ nodes, EdgeConnected es a.id b.id := by
    intro es hps a ha b hb
    exact EdgeConnected_mono _ es (fun e he => List.mem_of_mem_filter he) _ _
      (hps a ha b hb)
  refine ⟨generateEdges_permSpans O nodes,
    hfull _ (generateEdges_permSpans O nodes), ?_⟩
  intro hps
  exact ⟨regen_permSpans O nodes edges hps,
    hfull _ (regen_permSpans O nodes edges hps)⟩

/-- C6 witness: the connectivity guarantee applied to a concrete two-node
map whose single PERMANENT edge spans it, before and after regeneration. -/
theorem topology_connectivity_witness :
    PermSpans [nA10, nB5]
      (regenerateTopology oracleZero [nA10, nB5]
        [⟨"A", "B", EdgeType.PERMANENT⟩]) := by
  have hspan : PermSpans [nA10, nB5] [⟨"A", "B", EdgeType.PERMANENT⟩] := by
    intro a ha b hb
    simp only [List.mem_cons, List.not_mem_nil, or_false] at ha hb
    rcases ha with rfl | rfl <;> rcases hb with rfl | rfl
    · exact Relation.ReflTransGen.refl
    · exact Relation.ReflTransGen.single (by unfold EdgeAdj; decide)
    · exact Relation.ReflTransGen.single (by unfold EdgeAdj; decide)
    · exact Relation.ReflTransGen.refl
  exact ((topology_connectivity oracleZero [nA10, nB5]
    [⟨"A", "B", EdgeType.PERMANENT⟩]).2.2 hspan).1

end MicrobeWars
